import Mathlib

/-!
Verification development for the `SudokuSolver` propagation engine
(`sudoku_solver.py`).  The engine is shallowly embedded: Python strings
become `List Char`, the 81-entry candidate structure becomes
`List (List Char)` (each inner list is one cell's candidate list, in the
order the Python code maintains), and the unbounded `while` loop of
`build_possibilities` becomes a fuel-indexed loop together with theorems
showing the fuel never runs out.
-/

set_option maxRecDepth 100000

namespace Sudoku

/-- Candidate grids: one candidate list per cell, 81 cells. -/
abbrev Poss := List (List Char)

/-- The ASCII fragment of Python `str.isnumeric()`.  On code points
below 128 the two coincide and hold exactly for the ten decimal digits
'0'-'9' (note: '0' included, not only '1'-'9').  Outside ASCII,
`str.isnumeric()` is additionally true of other Unicode numerics (for
example '²' or '½'), which the program then stores as given cells while
this fragment maps them to blanks; every statement in this development
that characterises which characters are numeric is therefore asserted
for ASCII code points only, where the fragment is exact. -/
def pyIsNumeric (c : Char) : Bool := c.isDigit

/-- The scanning loop of `SudokuSolver.__init__` (lines 34-44): walk the
input while fewer than 81 cells have been produced; numeric characters are
kept, carriage returns and line feeds are skipped, anything else becomes a
blank cell. `room` is the remaining space up to 81 cells. -/
def scanCells : List Char → Nat → List Char
  | [], _ => []
  | _ :: _, 0 => []
  | c :: cs, room + 1 =>
    if pyIsNumeric c then c :: scanCells cs room
    else if c = '\n' ∨ c = '\r' then scanCells cs (room + 1)
    else ' ' :: scanCells cs room

/-- The full parser of `SudokuSolver.__init__`: scan at most 81 cells and
pad with blanks to exactly 81 (lines 34-47). -/
def parse_puzzle_array (s : List Char) : List Char :=
  let a := scanCells s 81
  a ++ List.replicate (81 - a.length) ' '

/-- `SudokuSolver.get_box_start_index` (lines 259-284).  The Python
function implicitly returns `None` outside 0..8; it is only ever called
with 0..8, so the default 0 here is never exercised by the embedding. -/
def get_box_start_index (box_number : Nat) : Nat :=
  match box_number with
  | 0 => 0
  | 1 => 3
  | 2 => 6
  | 3 => 27
  | 4 => 30
  | 5 => 33
  | 6 => 54
  | 7 => 57
  | 8 => 60
  | _ => 0

/-- The nine cell offsets of a box relative to its start index, as read
off the nine explicit `box.append` lines of `check_valid_box`
(lines 91-99) and the `i + 1 / i + 7` stepping of the box loops. -/
def box_cell_offsets : List Nat := [0, 1, 2, 9, 10, 11, 18, 19, 20]

/-- The local `box` list of `check_valid_box` (lines 90-99): the nine box
cells in the order the nine `box.append` lines produce. -/
def box_cells (arr : List Char) (b : Nat) : List Char :=
  box_cell_offsets.map (fun o => arr.getD (get_box_start_index b + o) ' ')

/-- The local `row` list of `check_valid_row` (line 117): the slice
`arr[r*9 : r*9+9]`. -/
def row_cells (arr : List Char) (r : Nat) : List Char := (arr.drop (r * 9)).take 9

/-- The local `column` list of `check_valid_column` (line 133): the slice
`arr[c::9]`, which on the 81-cell array yields the nine cells
`c, c+9, ..., c+72`. -/
def column_cells (arr : List Char) (c : Nat) : List Char :=
  (List.range 9).map (fun k => arr.getD (c + 9 * k) ' ')

/-- `SudokuSolver.check_valid_box` (lines 79-106): collect the nine box
cells and refuse any digit '1'-'9' appearing more than once (the loop
`for i in range(1, 10)` with its early `return False`). -/
def check_valid_box (arr : List Char) (b : Nat) : Bool :=
  (List.range' 1 9).all (fun i => (box_cells arr b).count (Nat.digitChar i) ≤ 1)

/-- `SudokuSolver.check_valid_row` (lines 108-122). -/
def check_valid_row (arr : List Char) (r : Nat) : Bool :=
  (List.range' 1 9).all (fun i => (row_cells arr r).count (Nat.digitChar i) ≤ 1)

/-- `SudokuSolver.check_valid_column` (lines 124-138). -/
def check_valid_column (arr : List Char) (c : Nat) : Bool :=
  (List.range' 1 9).all (fun i => (column_cells arr c).count (Nat.digitChar i) ≤ 1)

/-- `SudokuSolver.check_valid_puzzle` (lines 54-64): for i in 0..8 check
box i, then row i, then column i, raising `ValueError` with the matching
message at the first failure.  Raised exceptions are modelled by the
`Except.error` branch carrying the Python message. -/
def check_valid_puzzle (arr : List Char) : Except String Unit :=
  match (List.range 9).findSome? (fun i =>
    if check_valid_box arr i = false then some "Invalid puzzle. Bad box."
    else if check_valid_row arr i = false then some "Invalid puzzle. Bad row."
    else if check_valid_column arr i = false then some "Invalid puzzle. Bad column."
    else none) with
  | some m => Except.error m
  | none => Except.ok ()

/-- The list `[str(i) for i in range(1, 10)]` of `build_possibilities`
(line 196). -/
def digits19 : List Char := ['1', '2', '3', '4', '5', '6', '7', '8', '9']

/-- The initial candidate grid of `build_possibilities` (lines 196-199):
a full digit list everywhere, overwritten by the singleton of the given
character at every non-blank cell.  (Written per index rather than as
build-then-overwrite; the result is identical.) -/
def initial_possibilities (arr : List Char) : Poss :=
  (List.range 81).map (fun i => if arr.getD i ' ' ≠ ' ' then [arr.getD i ' '] else digits19)

/-- Replace cell `i` by `f` applied to its current value.  This is the
in-place mutation `self.possibilities[i] = ...` of the Python code. -/
def update_cell (p : Poss) (i : Nat) (f : List Char → List Char) : Poss :=
  p.set i (f (p.getD i []))

/-- One elimination of `reduce_row`/`reduce_column`/`reduce_box`
(e.g. lines 235-240): `possibilities[i].pop(possibilities[i].index(number))`
removes the first occurrence of `number`, i.e. `List.erase`, guarded by
the cell not being a singleton and containing the number. -/
def erase_step (n : Char) (cell : List Char) : List Char :=
  if cell.length ≠ 1 ∧ n ∈ cell then cell.erase n else cell

/-- Eliminate one number from every cell of a unit, in unit order. -/
def eliminate_number (p : Poss) (idxs : List Nat) (n : Char) : Poss :=
  idxs.foldl (fun q i => update_cell q i (erase_step n)) p

/-- The digits of the solved (singleton) cells of a unit, in unit order:
the `numbers_to_eliminate` collection loop of the reduce functions. -/
def solved_digits (p : Poss) (idxs : List Nat) : List Char :=
  idxs.filterMap (fun i =>
    let c := p.getD i []
    if c.length = 1 then c.head? else none)

/-- Common shape of `reduce_row`, `reduce_column` and `reduce_box`:
collect the solved digits of the unit once, then eliminate each of them
from the unit's non-singleton cells. -/
def reduce_unit (p : Poss) (idxs : List Nat) : Poss :=
  (solved_digits p idxs).foldl (fun q n => eliminate_number q idxs n) p

/-- The cell indices visited by `reduce_row` (lines 220-240):
`r*9, r*9+1, ..., r*9+8`. -/
def row_indices (r : Nat) : List Nat := (List.range 9).map (fun k => r * 9 + k)

/-- The cell indices visited by `reduce_column` (lines 242-257):
`c, c+9, ..., c+72` (the Python loop runs while `i < 81`; for the
arguments 0..8 used by the engine these are exactly nine indices). -/
def col_indices (c : Nat) : List Nat := (List.range 9).map (fun k => c + 9 * k)

/-- The cell indices visited by `reduce_box` and
`find_unique_possibilities_by_box` (the `i + 1, i + 1, i + 7` stepping):
box start plus the nine box offsets. -/
def box_indices (b : Nat) : List Nat :=
  box_cell_offsets.map (fun o => get_box_start_index b + o)

/-- `SudokuSolver.reduce_row` (lines 220-240). -/
def reduce_row (p : Poss) (r : Nat) : Poss := reduce_unit p (row_indices r)

/-- `SudokuSolver.reduce_column` (lines 242-257). -/
def reduce_column (p : Poss) (c : Nat) : Poss := reduce_unit p (col_indices c)

/-- `SudokuSolver.reduce_box` (lines 286-319). -/
def reduce_box (p : Poss) (b : Nat) : Poss := reduce_unit p (box_indices b)

/-- One collapse step of `find_unique_possibilities_by_box`
(lines 355-362): a non-singleton cell containing the number is replaced
by the singleton of that number. -/
def collapse_step (n : Char) (cell : List Char) : List Char :=
  if 1 < cell.length ∧ n ∈ cell then [n] else cell

/-- `SudokuSolver.find_unique_possibilities_by_box` (lines 321-363).
One scan over the box collects, in box order, the concatenation
`all_possibilities` of the open (size > 1) cells and the solved values
`not_to_eliminate` (head of each size ≤ 1 cell; Python would crash on an
empty cell, which never occurs - `headD` supplies a junk default).
A digit `str(j)` for j in 0..9 occurring exactly once in the pool and not
solved in the box collapses, in ascending j order, every open cell still
containing it. -/
def find_unique_possibilities_by_box (p : Poss) (b : Nat) : Poss :=
  let idxs := box_indices b
  let scan := idxs.foldl
    (fun acc i =>
      let c := p.getD i []
      if 1 < c.length then (acc.1 ++ c, acc.2) else (acc.1, acc.2 ++ [c.headD ' ']))
    (([] : List Char), ([] : List Char))
  let numbers_to_reduce := (List.range 10).filterMap
    (fun j =>
      if scan.1.count (Nat.digitChar j) = 1 ∧ Nat.digitChar j ∉ scan.2
      then some (Nat.digitChar j) else none)
  numbers_to_reduce.foldl
    (fun q n => idxs.foldl (fun q2 i => update_cell q2 i (collapse_step n)) q)
    p

/-- `SudokuSolver.number_of_possibilites` (lines 365-375; the source
spells it without the second "i"): sum of the cell candidate counts over
indices 0..80. -/
def number_of_possibilites (p : Poss) : Nat :=
  ((List.range 81).map (fun i => (p.getD i []).length)).sum

/-- One full iteration of the `while` body of `build_possibilities`
(lines 206-216): reduce all rows, then all columns, then all boxes, then
run hidden-single detection on all boxes. -/
def one_pass (p : Poss) : Poss :=
  let p1 := (List.range 9).foldl reduce_row p
  let p2 := (List.range 9).foldl reduce_column p1
  let p3 := (List.range 9).foldl reduce_box p2
  (List.range 9).foldl find_unique_possibilities_by_box p3

/-- The `while old_possibilities > new_possibilities` loop of
`build_possibilities` (lines 201-218), fuel-indexed: run a pass; if the
candidate count strictly decreased, continue, otherwise stop with the
post-pass state.  The Python loop has no fuel; `build_loop_stable` below
shows that with fuel 730 the loop always reaches its fixed point, so the
embedding and the source loop compute the same grid. -/
def build_loop : Nat → Poss → Poss
  | 0, p => p
  | fuel + 1, p =>
    let q := one_pass p
    if number_of_possibilites q < number_of_possibilites p then build_loop fuel q else q

/-- `SudokuSolver.build_possibilities` (lines 186-218). -/
def build_possibilities (arr : List Char) : Poss :=
  build_loop 730 (initial_possibilities arr)

/-- `SudokuSolver.get_reduced_puzzle` (lines 385-397): one character per
cell, the digit of a singleton cell and '.' otherwise. -/
def get_reduced_puzzle (p : Poss) : List Char :=
  p.map (fun cell => if cell.length = 1 then cell.headD '.' else '.')

/-- Python `int(letter)` on the digit characters '0'-'9' (the only
characters ever passed to it by `build_hints_string`). -/
def pyInt (c : Char) : Nat := c.toNat - 48

/-- The `while int(letter) != index` padding loop of
`build_hints_string` (lines 411-415), emitting `n` spaces for positions
`i, i+1, ..., i+n-1`, each followed by a newline when the position is a
multiple of 3.  Python loops forever when the target is below the current
index; that happens only for unsorted candidate lists, which the engine
never produces, and the `Nat` subtraction at the call site makes this
total embedding agree with Python on every reachable input. -/
def pad_cells : Nat → Nat → List Char
  | _, 0 => []
  | i, n + 1 => ' ' :: ((if i % 3 = 0 then ['\n'] else []) ++ pad_cells (i + 1) n)

/-- The letter loop of `build_hints_string` (lines 407-421), carrying the
running `index`. -/
def build_hints_aux : List Char → Nat → List Char
  | [], _ => []
  | c :: cs, idx =>
    pad_cells idx (pyInt c - idx) ++
      [c] ++ (if pyInt c % 3 = 0 then ['\n'] else []) ++ build_hints_aux cs (pyInt c + 1)

/-- `build_hints_string` inside `get_possibilities_for_web`
(lines 407-421), with `index` starting at 1. -/
def build_hints_string (cell : List Char) : List Char :=
  build_hints_aux cell 1

/-- `SudokuSolver.get_possibilities_for_web` (lines 399-431).  Python
appends the (singleton) candidate list itself for solved cells and the
hint string for open cells; both are modelled as character lists, a
Python `str` being a sequence of characters. -/
def get_possibilities_for_web (p : Poss) : List (List Char) :=
  p.map (fun cell => if cell.length = 1 then cell else build_hints_string cell)

/-- The state a successful `SudokuSolver.__init__` leaves behind. -/
structure SudokuSolver where
  puzzle_array : List Char
  puzzle_string : List Char
  possibilities : Poss

/-- `SudokuSolver.__init__` (lines 26-50): parse, validate (possibly
raising, modelled by `Except.error`), then build the candidate grid.  No
object is produced when validation fails.  (Python stores the parsed
array once and reuses it; writing `parse_puzzle_array s` twice below is
the same value.) -/
def make_sudoku_solver (s : List Char) : Except String SudokuSolver :=
  match check_valid_puzzle (parse_puzzle_array s) with
  | Except.error m => Except.error m
  | Except.ok _ =>
    Except.ok
      { puzzle_array := parse_puzzle_array s, puzzle_string := s,
        possibilities := build_possibilities (parse_puzzle_array s) }

/-- The solver record produced by a successful `__init__` on input `s`
(the `Except.ok` branch of `make_sudoku_solver`). -/
def solver_of (s : List Char) : SudokuSolver :=
  { puzzle_array := parse_puzzle_array s, puzzle_string := s,
    possibilities := build_possibilities (parse_puzzle_array s) }

/-- `SudokuSolver.check_valid_solution` (lines 66-77): rebuild a solver
from the reduced puzzle string; any raised error becomes `false`. -/
def check_valid_solution (st : SudokuSolver) : Bool :=
  match make_sudoku_solver (get_reduced_puzzle st.possibilities) with
  | Except.ok _ => true
  | Except.error _ => false

/-! ### Specification-side definitions, written from the wording of the
spec (for refinement comparisons), and concrete test inputs -/

/-- The parser as the spec words it (with the digit set corrected to the
numeric characters): drop CR and LF, turn numeric characters into givens
and everything else into blanks, truncate to 81 cells, pad with blanks to
exactly 81. -/
def parse_spec (s : List Char) : List Char :=
  let cells :=
    ((s.filter (fun c => c ≠ '\n' ∧ c ≠ '\r')).map
      (fun c => if pyIsNumeric c then c else ' ')).take 81
  cells ++ List.replicate (81 - cells.length) ' '

/-- Spec wording for a bad unit: some digit 1-9 occurs more than once
among the given (non-blank) cells of the unit. -/
def duplicate_in_cells (cells : List Char) : Prop :=
  ∃ d ∈ digits19, 2 ≤ cells.count d

instance : DecidablePred duplicate_in_cells := fun cells =>
  decidable_of_iff (∃ d ∈ digits19, 2 ≤ cells.count d) Iff.rfl

/-- The validation outcome as the spec words it: scanning unit indices in
ascending order, box before row before column, the first unit containing
a duplicated digit determines the error message. -/
def first_error_spec (arr : List Char) : Option String :=
  (List.range 9).findSome? (fun i =>
    if duplicate_in_cells (box_cells arr i) then some "Invalid puzzle. Bad box."
    else if duplicate_in_cells (row_cells arr i) then some "Invalid puzzle. Bad row."
    else if duplicate_in_cells (column_cells arr i) then some "Invalid puzzle. Bad column."
    else none)

/-- The `all_possibilities` pool of `find_unique_possibilities_by_box`:
the concatenation, in box order, of the open (size > 1) candidate
lists. -/
def pool (p : Poss) (idxs : List Nat) : List Char :=
  idxs.flatMap (fun i =>
    let c := p.getD i []
    if 1 < c.length then c else [])

/-- The `not_to_eliminate` list of `find_unique_possibilities_by_box`:
the heads, in box order, of the non-open cells. -/
def solved_values (p : Poss) (idxs : List Nat) : List Char :=
  idxs.flatMap (fun i =>
    let c := p.getD i []
    if 1 < c.length then [] else [c.headD ' '])

/-- The selection test of `numbers_to_reduce`: keep digit `str(j)` when
its pool count is exactly one and it is not a solved value of the box. -/
def ntr_filter (p : Poss) (b : Nat) (j : Nat) : Option Char :=
  if (pool p (box_indices b)).count (Nat.digitChar j) = 1 ∧
      Nat.digitChar j ∉ solved_values p (box_indices b)
  then some (Nat.digitChar j) else none

/-- The `numbers_to_reduce` list of `find_unique_possibilities_by_box`:
digits '0'-'9' in ascending order whose pool count is exactly one and
which are not solved values of the box. -/
def numbers_to_reduce (p : Poss) (b : Nat) : List Char :=
  (List.range 10).filterMap (ntr_filter p b)

/-- The hidden-single condition of the claim, for digit `d` at cell `i`
of box `b`: the cell is open and holds `d`, no other open cell of the box
holds `d`, and `d` is not the value of a solved cell of the box. -/
def hidden_single (p : Poss) (b : Nat) (i : Nat) (d : Char) : Prop :=
  i ∈ box_indices b ∧ 1 < (p.getD i []).length ∧ d ∈ p.getD i [] ∧
  (∀ j ∈ box_indices b, j ≠ i → 1 < (p.getD j []).length → d ∉ p.getD j []) ∧
  (∀ j ∈ box_indices b, (p.getD j []).length = 1 → p.getD j [] ≠ [d])

instance (p : Poss) (b i : Nat) (d : Char) : Decidable (hidden_single p b i d) := by
  unfold hidden_single
  infer_instance

/-- One keypad position of the spec's hint block: the digit when it is a
candidate and a space otherwise, followed by a newline after positions
3, 6 and 9. -/
def blockf (cell : List Char) (p : Nat) : List Char :=
  (if Nat.digitChar p ∈ cell then [Nat.digitChar p] else [' ']) ++
    (if p % 3 = 0 then ['\n'] else [])

/-- The claim's fully padded 3-row hint block: positions 1..9 in keypad
layout, the digit where present and a space elsewhere, a newline after
positions 3, 6 and 9. -/
def full_block_spec (cell : List Char) : List Char :=
  (List.range' 1 9).flatMap (blockf cell)

/-- The keypad block truncated after position `hi`: what the code's hint
builder actually emits (it stops at the largest candidate). -/
def block_spec_upto (cell : List Char) (lo hi : Nat) : List Char :=
  (List.range' lo (hi + 1 - lo)).flatMap (blockf cell)

/-- The box number of a cell, per the data model: (row div 3) * 3 +
(column div 3). -/
def box_of (i : Nat) : Nat := (i / 9 / 3) * 3 + (i % 9) / 3

/-- The three units (row, column, box) a cell belongs to. -/
def units_of (i : Nat) : List (List Nat) :=
  [row_indices (i / 9), col_indices (i % 9), box_indices (box_of i)]

/-- Digit `d` is the value of a solved cell in one of `i`'s units. -/
def solved_in_units (p : Poss) (i : Nat) (d : Char) : Prop :=
  ∃ u ∈ units_of i, ∃ j ∈ u, p.getD j [] = [d]

/-- Every cell of the grid satisfies `P`. -/
def AllCells (P : List Char → Prop) (p : Poss) : Prop := ∀ c ∈ p, P c

/-- Well-formedness of a reachable candidate list: non-empty, a sublist
of the digit list when open, and all members digit characters. -/
def DigCell (c : List Char) : Prop :=
  c ≠ [] ∧ (1 < c.length → List.Sublist c digits19) ∧ ∀ x ∈ c, x.isDigit = true

/-- Every digit missing from an open cell is currently solved in one of
that cell's units (the grid never forgets why it eliminated). -/
def MissingSolved (p : Poss) : Prop :=
  ∀ i < 81, 1 < (p.getD i []).length →
    ∀ d ∈ digits19, d ∉ p.getD i [] → solved_in_units p i d

/-- The rebuild state `q` covers the fixed point `P`: solved cells agree
exactly and open cells of `P` are contained in the corresponding cells
of `q`. -/
def Covers (P q : Poss) : Prop :=
  ∀ i < 81, ((P.getD i []).length = 1 → q.getD i [] = P.getD i []) ∧
    (∀ d ∈ P.getD i [], d ∈ q.getD i [])

/-- `q` keeps every solved (singleton) cell of `p` with the same value. -/
def SolvedStable (p q : Poss) : Prop :=
  ∀ j (d : Char), p.getD j [] = [d] → q.getD j [] = [d]

/-- Working invariant for re-running the engine on the reduced puzzle of
a fixed point `P`: the state covers `P`, all its cells are digit cells,
and it has the right length. -/
def CovInv (P q : Poss) : Prop :=
  Covers P q ∧ AllCells DigCell q ∧ q.length = 81

/-- A grid transformer that can only delete candidates: the count never
grows, and an unchanged count forces an unchanged grid. -/
def ShrinkFn (g : Poss → Poss) : Prop :=
  (∀ p, number_of_possibilites (g p) ≤ number_of_possibilites p) ∧
  (∀ p, number_of_possibilites (g p) = number_of_possibilites p → g p = p)

/-- A cell transformer that can only delete candidates. -/
def CellShrink (f : List Char → List Char) : Prop :=
  ∀ c, (f c).length ≤ c.length ∧ ((f c).length = c.length → f c = c)

/-- The state invariant carried around the build loop: 81 cells, none
empty. -/
def Inv (p : Poss) : Prop := p.length = 81 ∧ AllCells (fun c => c ≠ []) p

/-- The number of strictly decreasing passes the loop performs, starting
from `p` with the given fuel. -/
def decreasing_passes : Nat → Poss → Nat
  | 0, _ => 0
  | fuel + 1, p =>
    let q := one_pass p
    if number_of_possibilites q < number_of_possibilites p
    then decreasing_passes fuel q + 1 else 0

/-- A well-formed candidate list: non-empty, duplicate-free, and inside
the digits 1-9. -/
def GoodCell (c : List Char) : Prop :=
  c ≠ [] ∧ c.Nodup ∧ ∀ d ∈ c, d ∈ digits19

/-- Open cells of a reachable grid are sublists of the digit list. -/
def OpenSub (c : List Char) : Prop := 1 < c.length → List.Sublist c digits19

/-- An all-blank 81-character input. -/
def blank_input : List Char := List.replicate 81 '.'

/-- The solver state constructed from the all-blank input: 81 blank
cells, full candidate lists everywhere (see `blank_build`). -/
def blank_state : SudokuSolver :=
  { puzzle_array := List.replicate 81 ' ', puzzle_string := blank_input,
    possibilities := List.replicate 81 digits19 }

/-- A valid input whose propagation derives a contradiction: row 0 is
`_23456789` and cell 9 (row 1, column 0) is `1`.  Row elimination forces
cell 0 to `1`, duplicating the `1` of cell 9 inside box 0 and column 0. -/
def clash_input : List Char :=
  [' ', '2', '3', '4', '5', '6', '7', '8', '9', '1'] ++ List.replicate 71 ' '

/-- A valid input on which two digits (1 and 2) are simultaneously hidden
singles of box 0 at the same cell 0 when the hidden-single stage of the
first pass runs: box 0 holds givens 5,6,7,8,9, and the 1s and 2s in
columns 1 and 2 strip both digits from every open box-0 cell except
cell 0. -/
def double_single_input : List Char :=
  (List.range 81).map (fun i =>
    if i = 9 then '5' else if i = 10 then '6' else if i = 11 then '7'
    else if i = 18 then '8' else if i = 19 then '9'
    else if i = 28 then '1' else if i = 37 then '2'
    else if i = 56 then '1' else if i = 65 then '2' else ' ')

/-- The grid state of `double_single_input` when the hidden-single stage
of the first pass begins: rows, then columns, then boxes reduced once. -/
def double_single_stage : Poss :=
  (List.range 9).foldl reduce_box
    ((List.range 9).foldl reduce_column
      ((List.range 9).foldl reduce_row
        (initial_possibilities (parse_puzzle_array double_single_input))))

/-- A valid input with an open cell that never holds candidate 9: cell 8
of row 0 is the given `9`, so cell 0 settles on candidates 1..8. -/
def no_nine_input : List Char :=
  List.replicate 8 ' ' ++ ['9'] ++ List.replicate 72 ' '

/-- The solver state constructed from `no_nine_input`. -/
def no_nine_state : SudokuSolver :=
  { puzzle_array := parse_puzzle_array no_nine_input, puzzle_string := no_nine_input,
    possibilities := build_possibilities (parse_puzzle_array no_nine_input) }

/-! ### Access and update lemmas -/

theorem getD_eq_getElem {α : Type} {l : List α} {i : Nat} {d : α} (h : i < l.length) :
    l.getD i d = l[i] := by
  simp [List.getD_eq_getElem?_getD, List.getElem?_eq_getElem h]

theorem getD_mem {α : Type} {l : List α} {i : Nat} {d : α} (h : i < l.length) :
    l.getD i d ∈ l := by
  rw [getD_eq_getElem h]; exact List.getElem_mem h

theorem getD_set_ne {p : Poss} {a : List Char} {i j : Nat} (h : i ≠ j) :
    (p.set i a).getD j [] = p.getD j [] := by
  simp [List.getD_eq_getElem?_getD, List.getElem?_set_ne h]

theorem getD_set_self {p : Poss} {a : List Char} {i : Nat} (h : i < p.length) :
    (p.set i a).getD i [] = a := by
  simp [List.getD_eq_getElem?_getD, List.getElem?_set_self', List.getElem?_eq_getElem h]

theorem set_getD_self {p : Poss} {i : Nat} : p.set i (p.getD i []) = p := by
  rcases Nat.lt_or_ge i p.length with h | h
  · apply List.ext_getElem (by simp)
    intro j h1 h2
    rcases eq_or_ne i j with rfl | hij
    · rw [List.getElem_set_self, getD_eq_getElem h]
    · rw [List.getElem_set_ne hij]
  · exact List.set_eq_of_length_le h

theorem length_update_cell (p : Poss) (i : Nat) (f : List Char → List Char) :
    (update_cell p i f).length = p.length := by
  simp [update_cell]

theorem update_cell_of_ge {p : Poss} {i : Nat} (f : List Char → List Char)
    (h : p.length ≤ i) : update_cell p i f = p := by
  simp [update_cell, List.set_eq_of_length_le h]

theorem getD_update_cell_ne {p : Poss} {i j : Nat} (f : List Char → List Char) (h : i ≠ j) :
    (update_cell p i f).getD j [] = p.getD j [] := getD_set_ne h

theorem getD_update_cell_self {p : Poss} {i : Nat} (f : List Char → List Char)
    (h : i < p.length) :
    (update_cell p i f).getD i [] = f (p.getD i []) := getD_set_self h

/-! ### Candidate-count machinery: every mutation of the engine weakly
decreases `number_of_possibilites`, and a mutation that leaves the count
unchanged leaves the whole grid unchanged. -/

theorem count_le_of_pointwise {p q : Poss}
    (h : ∀ i, (q.getD i []).length ≤ (p.getD i []).length) :
    number_of_possibilites q ≤ number_of_possibilites p :=
  List.sum_le_sum (fun i _ => h i)

theorem sum_map_eq_pointwise {l : List Nat} {f g : Nat → Nat} (hle : ∀ i ∈ l, f i ≤ g i)
    (hsum : (l.map f).sum = (l.map g).sum) : ∀ i ∈ l, f i = g i := by
  induction l with
  | nil => simp
  | cons a l ih =>
    have h1 : f a ≤ g a := hle a (by simp)
    have h2 : (l.map f).sum ≤ (l.map g).sum :=
      List.sum_le_sum (fun i hi => hle i (List.mem_cons_of_mem a hi))
    simp only [List.map_cons, List.sum_cons] at hsum
    have h3 : f a = g a := by omega
    have h4 : (l.map f).sum = (l.map g).sum := by omega
    intro i hi
    rcases List.mem_cons.1 hi with rfl | hi
    · exact h3
    · exact ih (fun j hj => hle j (List.mem_cons_of_mem a hj)) h4 i hi

theorem cellShrink_erase_step (n : Char) : CellShrink (erase_step n) := by
  intro c
  unfold erase_step
  split
  · rename_i h
    have hm : n ∈ c := h.2
    have : (c.erase n).length = c.length - 1 := List.length_erase_of_mem hm
    have hpos : 0 < c.length := List.length_pos.2 (List.ne_nil_of_mem hm)
    omega
  · exact ⟨le_refl _, fun _ => rfl⟩

theorem cellShrink_collapse_step (n : Char) : CellShrink (collapse_step n) := by
  intro c
  unfold collapse_step
  split
  · rename_i h
    simp only [List.length_singleton]
    omega
  · exact ⟨le_refl _, fun _ => rfl⟩

theorem count_update_cell_le {f : List Char → List Char} (hf : CellShrink f)
    (p : Poss) (i : Nat) :
    number_of_possibilites (update_cell p i f) ≤ number_of_possibilites p := by
  apply count_le_of_pointwise
  intro j
  rcases eq_or_ne i j with rfl | hij
  · rcases Nat.lt_or_ge i p.length with hlt | hge
    · rw [getD_update_cell_self f hlt]; exact (hf _).1
    · rw [update_cell_of_ge f hge]
  · rw [getD_update_cell_ne f hij]

theorem shrink_update_cell {f : List Char → List Char} (hf : CellShrink f)
    {i : Nat} (hi : i < 81) : ShrinkFn (fun p => update_cell p i f) := by
  constructor
  · intro p
    exact count_update_cell_le hf p i
  · intro p hcount
    dsimp only at hcount
    rcases Nat.lt_or_ge i p.length with hlt | hge
    · have hle : ∀ j, ((update_cell p i f).getD j []).length ≤ ((p).getD j []).length := by
        intro j
        rcases eq_or_ne i j with rfl | hij
        · rw [getD_update_cell_self f hlt]; exact (hf _).1
        · rw [getD_update_cell_ne f hij]
      have heq := sum_map_eq_pointwise (l := List.range 81)
        (f := fun j => ((update_cell p i f).getD j []).length)
        (g := fun j => (p.getD j []).length)
        (fun j _ => hle j) hcount i (List.mem_range.2 hi)
      dsimp only at heq
      rw [getD_update_cell_self f hlt] at heq
      have hfix : f (p.getD i []) = p.getD i [] := (hf _).2 heq
      show p.set i (f (p.getD i [])) = p
      rw [hfix, set_getD_self]
    · exact update_cell_of_ge f hge

theorem ShrinkFn.comp {g h : Poss → Poss} (hg : ShrinkFn g) (hh : ShrinkFn h) :
    ShrinkFn (fun p => h (g p)) := by
  constructor
  · intro p; exact le_trans (hh.1 (g p)) (hg.1 p)
  · intro p hcount
    dsimp only at hcount ⊢
    have hle1 : number_of_possibilites (h (g p)) ≤ number_of_possibilites (g p) := hh.1 (g p)
    have hle2 : number_of_possibilites (g p) ≤ number_of_possibilites p := hg.1 p
    have h1 : number_of_possibilites (g p) = number_of_possibilites p := by omega
    have h2 : g p = p := hg.2 p h1
    rw [h2] at hcount ⊢
    exact hh.2 p hcount

theorem ShrinkFn.id : ShrinkFn (fun p => p) :=
  ⟨fun _ => le_refl _, fun _ _ => rfl⟩

theorem shrink_foldl {α : Type} (g : Poss → α → Poss) (l : List α)
    (hg : ∀ a ∈ l, ShrinkFn (fun p => g p a)) : ShrinkFn (fun p => l.foldl g p) := by
  induction l with
  | nil =>
    constructor
    · intro p; dsimp only; rw [List.foldl_nil]
    · intro p h; dsimp only at h ⊢; rw [List.foldl_nil]
  | cons a l ih =>
    have h1 : ShrinkFn (fun p => g p a) := hg a (by simp)
    have h2 : ShrinkFn (fun p => l.foldl g p) :=
      ih (fun b hb => hg b (List.mem_cons_of_mem a hb))
    have h3 := ShrinkFn.comp h1 h2
    constructor
    · intro p
      have := h3.1 p
      simpa [List.foldl_cons] using this
    · intro p hcount
      have := h3.2 p
      simp only [List.foldl_cons] at hcount ⊢
      exact this hcount

/-- If a fold of shrinking steps leaves the count unchanged, the fold is
the identity and so is each single step applied to the start state. -/
theorem foldl_fix {α : Type} {g : Poss → α → Poss} {l : List α} {p : Poss}
    (hg : ∀ a ∈ l, ShrinkFn (fun p => g p a))
    (h : number_of_possibilites (l.foldl g p) = number_of_possibilites p) :
    l.foldl g p = p ∧ ∀ a ∈ l, g p a = p := by
  induction l generalizing p with
  | nil => simp
  | cons a l ih =>
    have h1 : ShrinkFn (fun p => g p a) := hg a (by simp)
    have h2 : ShrinkFn (fun p => l.foldl g p) :=
      shrink_foldl g l (fun b hb => hg b (List.mem_cons_of_mem a hb))
    simp only [List.foldl_cons] at h ⊢
    have hle1 : number_of_possibilites (l.foldl g (g p a)) ≤ number_of_possibilites (g p a) :=
      h2.1 (g p a)
    have hle2 : number_of_possibilites (g p a) ≤ number_of_possibilites p := h1.1 p
    have hcnt : number_of_possibilites (g p a) = number_of_possibilites p := by omega
    have hfixa : g p a = p := h1.2 p hcnt
    rw [hfixa] at h ⊢
    have := ih (fun b hb => hg b (List.mem_cons_of_mem a hb)) h
    refine ⟨this.1, ?_⟩
    intro b hb
    rcases List.mem_cons.1 hb with rfl | hb
    · exact hfixa
    · exact this.2 b hb

/-! ### The engine's operations are shrinking -/

/-- All cell indices used by the reduction passes are in range. -/
theorem unit_indices_lt :
    ∀ b < 9, (∀ i ∈ row_indices b, i < 81) ∧ (∀ i ∈ col_indices b, i < 81) ∧
      (∀ i ∈ box_indices b, i < 81) := by decide

theorem shrink_eliminate_number {idxs : List Nat} (h81 : ∀ i ∈ idxs, i < 81) (n : Char) :
    ShrinkFn (fun p => eliminate_number p idxs n) :=
  shrink_foldl _ idxs
    (fun i hi => shrink_update_cell (cellShrink_erase_step n) (h81 i hi))

theorem shrink_reduce_unit {idxs : List Nat} (h81 : ∀ i ∈ idxs, i < 81) :
    ShrinkFn (fun p => reduce_unit p idxs) := by
  constructor
  · intro p
    exact (shrink_foldl _ (solved_digits p idxs)
      (fun n _ => shrink_eliminate_number h81 n)).1 p
  · intro p h
    exact (shrink_foldl _ (solved_digits p idxs)
      (fun n _ => shrink_eliminate_number h81 n)).2 p h

theorem shrink_collapse_fold {idxs : List Nat} (h81 : ∀ i ∈ idxs, i < 81) (n : Char) :
    ShrinkFn (fun p => idxs.foldl (fun q i => update_cell q i (collapse_step n)) p) :=
  shrink_foldl _ idxs
    (fun i hi => shrink_update_cell (cellShrink_collapse_step n) (h81 i hi))

theorem shrink_find_unique {b : Nat} (hb : b < 9) :
    ShrinkFn (fun p => find_unique_possibilities_by_box p b) := by
  have h81 : ∀ i ∈ box_indices b, i < 81 := (unit_indices_lt b hb).2.2
  constructor
  · intro p
    show number_of_possibilites (find_unique_possibilities_by_box p b) ≤ _
    unfold find_unique_possibilities_by_box
    exact (shrink_foldl _ _ (fun n _ => shrink_collapse_fold h81 n)).1 p
  · intro p h
    show find_unique_possibilities_by_box p b = p
    unfold find_unique_possibilities_by_box at h ⊢
    exact (shrink_foldl _ _ (fun n _ => shrink_collapse_fold h81 n)).2 p h

theorem shrink_reduce_row : ShrinkFn (fun p => (List.range 9).foldl reduce_row p) :=
  shrink_foldl _ _ (fun r hr =>
    shrink_reduce_unit ((unit_indices_lt r (List.mem_range.1 hr)).1))

theorem shrink_reduce_column : ShrinkFn (fun p => (List.range 9).foldl reduce_column p) :=
  shrink_foldl _ _ (fun c hc =>
    shrink_reduce_unit ((unit_indices_lt c (List.mem_range.1 hc)).2.1))

theorem shrink_reduce_box : ShrinkFn (fun p => (List.range 9).foldl reduce_box p) :=
  shrink_foldl _ _ (fun b hb =>
    shrink_reduce_unit ((unit_indices_lt b (List.mem_range.1 hb)).2.2))

theorem shrink_find_unique_fold :
    ShrinkFn (fun p => (List.range 9).foldl find_unique_possibilities_by_box p) :=
  shrink_foldl _ _ (fun _ hb => shrink_find_unique (List.mem_range.1 hb))

theorem shrink_one_pass : ShrinkFn one_pass := by
  have h := ShrinkFn.comp (ShrinkFn.comp (ShrinkFn.comp shrink_reduce_row shrink_reduce_column)
    shrink_reduce_box) shrink_find_unique_fold
  constructor
  · intro p; exact h.1 p
  · intro p hc; exact h.2 p hc

theorem count_one_pass_le (p : Poss) :
    number_of_possibilites (one_pass p) ≤ number_of_possibilites p :=
  shrink_one_pass.1 p

theorem one_pass_eq_of_count_eq {p : Poss}
    (h : number_of_possibilites (one_pass p) = number_of_possibilites p) :
    one_pass p = p :=
  shrink_one_pass.2 p h

/-! ### Per-cell invariants preserved by the engine -/

theorem allCells_update_cell {P : List Char → Prop} {p : Poss} {i : Nat}
    {f : List Char → List Char} (hf : ∀ c, P c → P (f c)) (hp : AllCells P p) :
    AllCells P (update_cell p i f) := by
  intro c hc
  rcases Nat.lt_or_ge i p.length with hlt | hge
  · unfold update_cell at hc
    rcases List.mem_or_eq_of_mem_set hc with hc | rfl
    · exact hp c hc
    · exact hf _ (hp _ (getD_mem hlt))
  · rw [update_cell_of_ge f hge] at hc; exact hp c hc

theorem allCells_foldl {α : Type} {P : List Char → Prop} {g : Poss → α → Poss} {l : List α}
    (hg : ∀ q a, a ∈ l → AllCells P q → AllCells P (g q a)) {p : Poss} (hp : AllCells P p) :
    AllCells P (l.foldl g p) := by
  induction l generalizing p with
  | nil => simpa using hp
  | cons a l ih =>
    rw [List.foldl_cons]
    exact ih (fun q b hb hq => hg q b (List.mem_cons_of_mem a hb) hq)
      (hg p a (by simp) hp)

theorem allCells_one_pass {P : List Char → Prop}
    (he : ∀ n c, P c → P (erase_step n c))
    (hc : ∀ n c, P c → P (collapse_step n c))
    {p : Poss} (hp : AllCells P p) : AllCells P (one_pass p) := by
  have hreduce : ∀ (idxs : List Nat) q, AllCells P q → AllCells P (reduce_unit q idxs) := by
    intro idxs q hq
    unfold reduce_unit
    apply allCells_foldl (fun q2 n _ hq2 => ?_) hq
    unfold eliminate_number
    exact allCells_foldl (fun q3 i _ hq3 => allCells_update_cell (he n) hq3) hq2
  have hfu : ∀ (b : Nat) q, AllCells P q → AllCells P (find_unique_possibilities_by_box q b) := by
    intro b q hq
    unfold find_unique_possibilities_by_box
    apply allCells_foldl (fun q2 n _ hq2 => ?_) hq
    exact allCells_foldl (fun q3 i _ hq3 => allCells_update_cell (hc n) hq3) hq2
  unfold one_pass
  apply allCells_foldl (fun q b _ hq => hfu b q hq)
  apply allCells_foldl (fun q b _ hq => hreduce (box_indices b) q hq)
  apply allCells_foldl (fun q c _ hq => hreduce (col_indices c) q hq)
  exact allCells_foldl (fun q r _ hq => hreduce (row_indices r) q hq) hp

/-- Unfolding equation for one step of the build loop. -/
theorem build_loop_succ (fuel : Nat) (p : Poss) :
    build_loop (fuel + 1) p =
      if number_of_possibilites (one_pass p) < number_of_possibilites p
      then build_loop fuel (one_pass p) else one_pass p := rfl

theorem allCells_build_loop {P : List Char → Prop}
    (he : ∀ n c, P c → P (erase_step n c))
    (hc : ∀ n c, P c → P (collapse_step n c)) :
    ∀ (fuel : Nat) {p : Poss}, AllCells P p → AllCells P (build_loop fuel p) := by
  intro fuel
  induction fuel with
  | zero => intro p hp; exact hp
  | succ fuel ih =>
    intro p hp
    rw [build_loop_succ]
    by_cases h : number_of_possibilites (one_pass p) < number_of_possibilites p
    · rw [if_pos h]; exact ih (allCells_one_pass he hc hp)
    · rw [if_neg h]; exact allCells_one_pass he hc hp

theorem length_foldl {α : Type} {g : Poss → α → Poss} {l : List α}
    (hg : ∀ q a, (g q a).length = q.length) (p : Poss) :
    (l.foldl g p).length = p.length := by
  induction l generalizing p with
  | nil => rfl
  | cons a l ih => rw [List.foldl_cons, ih, hg]

theorem length_reduce_unit (p : Poss) (idxs : List Nat) :
    (reduce_unit p idxs).length = p.length := by
  unfold reduce_unit
  apply length_foldl
  intro q n
  unfold eliminate_number
  apply length_foldl
  intro q2 i
  exact length_update_cell q2 i _

theorem length_find_unique (p : Poss) (b : Nat) :
    (find_unique_possibilities_by_box p b).length = p.length := by
  unfold find_unique_possibilities_by_box
  apply length_foldl
  intro q n
  apply length_foldl
  intro q2 i
  exact length_update_cell q2 i _

theorem length_reduce_row (q : Poss) (r : Nat) : (reduce_row q r).length = q.length :=
  length_reduce_unit q _

theorem length_reduce_column (q : Poss) (c : Nat) : (reduce_column q c).length = q.length :=
  length_reduce_unit q _

theorem length_reduce_box (q : Poss) (b : Nat) : (reduce_box q b).length = q.length :=
  length_reduce_unit q _

theorem length_one_pass (p : Poss) : (one_pass p).length = p.length := by
  unfold one_pass
  rw [length_foldl length_find_unique, length_foldl length_reduce_box,
    length_foldl length_reduce_column, length_foldl length_reduce_row]

theorem length_build_loop : ∀ (fuel : Nat) (p : Poss),
    (build_loop fuel p).length = p.length := by
  intro fuel
  induction fuel with
  | zero => intro p; rfl
  | succ fuel ih =>
    intro p
    rw [build_loop_succ]
    by_cases h : number_of_possibilites (one_pass p) < number_of_possibilites p
    · rw [if_pos h, ih, length_one_pass]
    · rw [if_neg h]; exact length_one_pass p

/-! ### Termination of the build loop -/

theorem erase_step_ne_nil (n : Char) {c : List Char} (h : c ≠ []) :
    erase_step n c ≠ [] := by
  unfold erase_step
  split
  · rename_i hg
    have hm : n ∈ c := hg.2
    have h1 : (c.erase n).length = c.length - 1 := List.length_erase_of_mem hm
    have h2 : 0 < c.length := List.length_pos.2 (List.ne_nil_of_mem hm)
    have h3 : c.length ≠ 1 := hg.1
    intro hnil
    rw [hnil] at h1
    simp at h1
    omega
  · exact h

theorem collapse_step_ne_nil (n : Char) {c : List Char} (h : c ≠ []) :
    collapse_step n c ≠ [] := by
  unfold collapse_step
  split
  · simp
  · exact h

theorem length_initial (arr : List Char) : (initial_possibilities arr).length = 81 := by
  simp [initial_possibilities]

theorem getD_initial (arr : List Char) {i : Nat} (h : i < 81) :
    (initial_possibilities arr).getD i [] =
      if arr.getD i ' ' ≠ ' ' then [arr.getD i ' '] else digits19 := by
  have hlt : i < (initial_possibilities arr).length := by rw [length_initial]; exact h
  rw [getD_eq_getElem hlt]
  unfold initial_possibilities
  rw [List.getElem_map, List.getElem_range]

theorem inv_initial (arr : List Char) : Inv (initial_possibilities arr) := by
  constructor
  · exact length_initial arr
  · intro c hc
    unfold initial_possibilities at hc
    rcases List.mem_map.1 hc with ⟨i, _, rfl⟩
    split
    · simp
    · simp [digits19]

theorem inv_one_pass {p : Poss} (h : Inv p) : Inv (one_pass p) :=
  ⟨by rw [length_one_pass]; exact h.1,
    allCells_one_pass (fun n c hc => erase_step_ne_nil n hc)
      (fun n c hc => collapse_step_ne_nil n hc) h.2⟩

theorem inv_build_loop (fuel : Nat) {p : Poss} (h : Inv p) : Inv (build_loop fuel p) :=
  ⟨by rw [length_build_loop]; exact h.1,
    allCells_build_loop (fun n c hc => erase_step_ne_nil n hc)
      (fun n c hc => collapse_step_ne_nil n hc) fuel h.2⟩

theorem sum_map_const {n k : Nat} : ((List.range n).map (fun _ => k)).sum = n * k := by
  induction n with
  | zero => simp
  | succ n ih =>
    rw [List.range_succ]
    simp only [List.map_append, List.sum_append, List.map_cons, List.map_nil,
      List.sum_cons, List.sum_nil]
    rw [Nat.succ_mul]
    omega

theorem count_ge_81 {p : Poss} (h : Inv p) : 81 ≤ number_of_possibilites p := by
  unfold number_of_possibilites
  have h1 : ((List.range 81).map (fun _ => 1)).sum ≤
      ((List.range 81).map (fun i => (p.getD i []).length)).sum := by
    apply List.sum_le_sum
    intro i hi
    have hi81 : i < 81 := List.mem_range.1 hi
    have hlt : i < p.length := by rw [h.1]; exact hi81
    have hne : p.getD i [] ≠ [] := h.2 _ (getD_mem hlt)
    have := List.length_pos.2 hne
    omega
  have h2 : ((List.range 81).map (fun _ => 1)).sum = 81 := by
    rw [sum_map_const]
  omega

theorem count_initial_le (arr : List Char) :
    number_of_possibilites (initial_possibilities arr) ≤ 729 := by
  unfold number_of_possibilites
  have h1 : ((List.range 81).map (fun i => ((initial_possibilities arr).getD i []).length)).sum ≤
      ((List.range 81).map (fun _ => 9)).sum := by
    apply List.sum_le_sum
    intro i hi
    have hi81 : i < 81 := List.mem_range.1 hi
    rw [getD_initial arr hi81]
    split
    · simp
    · simp [digits19]
  have h2 : ((List.range 81).map (fun _ => 9)).sum = 729 := by rw [sum_map_const]
  omega

/-- With the invariant, enough fuel makes the loop reach a state that a
further pass does not change: the embedded loop and the unbounded Python
loop agree. -/
theorem build_loop_stable : ∀ (fuel : Nat) (p : Poss), Inv p →
    number_of_possibilites p - 81 < fuel →
    one_pass (build_loop fuel p) = build_loop fuel p := by
  intro fuel
  induction fuel with
  | zero =>
    intro p hinv hcnt
    have := count_ge_81 hinv
    omega
  | succ fuel ih =>
    intro p hinv hcnt
    rw [build_loop_succ]
    by_cases h : number_of_possibilites (one_pass p) < number_of_possibilites p
    · rw [if_pos h]
      apply ih (one_pass p) (inv_one_pass hinv)
      have h81 := count_ge_81 (inv_one_pass hinv)
      omega
    · rw [if_neg h]
      have hle := count_one_pass_le p
      have heq : number_of_possibilites (one_pass p) = number_of_possibilites p := by omega
      have hfix : one_pass p = p := one_pass_eq_of_count_eq heq
      rw [hfix]
      exact hfix

theorem decreasing_passes_succ (fuel : Nat) (p : Poss) :
    decreasing_passes (fuel + 1) p =
      if number_of_possibilites (one_pass p) < number_of_possibilites p
      then decreasing_passes fuel (one_pass p) + 1 else 0 := rfl

theorem decreasing_passes_le : ∀ (fuel : Nat) (p : Poss), Inv p →
    decreasing_passes fuel p ≤ number_of_possibilites p - 81 := by
  intro fuel
  induction fuel with
  | zero => intro p _; simp [decreasing_passes]
  | succ fuel ih =>
    intro p hinv
    rw [decreasing_passes_succ]
    by_cases h : number_of_possibilites (one_pass p) < number_of_possibilites p
    · rw [if_pos h]
      have h1 := ih (one_pass p) (inv_one_pass hinv)
      have h2 := count_ge_81 (inv_one_pass hinv)
      omega
    · rw [if_neg h]
      omega

/-! ### Parser characterization -/

theorem scanCells_eq (s : List Char) : ∀ room : Nat,
    scanCells s room =
      ((s.filter (fun c => c ≠ '\n' ∧ c ≠ '\r')).map
        (fun c => if pyIsNumeric c then c else ' ')).take room := by
  induction s with
  | nil => intro room; simp [scanCells]
  | cons c cs ih =>
    intro room
    match room with
    | 0 => simp [scanCells]
    | room + 1 =>
      show scanCells (c :: cs) (room + 1) = _
      unfold scanCells
      by_cases h1 : pyIsNumeric c
      · have hn : c ≠ '\n' := by rintro rfl; exact absurd h1 (by decide)
        have hr : c ≠ '\r' := by rintro rfl; exact absurd h1 (by decide)
        rw [if_pos h1, List.filter_cons_of_pos (by simp [hn, hr]), List.map_cons,
          if_pos h1, List.take_succ_cons, ih room]
      · by_cases h2 : c = '\n' ∨ c = '\r'
        · rw [if_neg h1, if_pos h2, List.filter_cons_of_neg ?_]
          · exact ih (room + 1)
          · rcases h2 with rfl | rfl <;> simp
        · have hn : c ≠ '\n' := fun hc => h2 (Or.inl hc)
          have hr : c ≠ '\r' := fun hc => h2 (Or.inr hc)
          rw [if_neg h1, if_neg h2, List.filter_cons_of_pos (by simp [hn, hr]),
            List.map_cons, if_neg h1, List.take_succ_cons, ih room]

theorem parse_eq_spec (s : List Char) : parse_puzzle_array s = parse_spec s := by
  unfold parse_puzzle_array parse_spec
  rw [scanCells_eq]

theorem length_parse (s : List Char) : (parse_puzzle_array s).length = 81 := by
  rw [parse_eq_spec]
  unfold parse_spec
  have h : (((s.filter (fun c => c ≠ '\n' ∧ c ≠ '\r')).map
      (fun c => if pyIsNumeric c then c else ' ')).take 81).length ≤ 81 := by
    rw [List.length_take]; omega
  simp only [List.length_append, List.length_replicate]
  omega

theorem parse_mem (s : List Char) :
    ∀ c ∈ parse_puzzle_array s, pyIsNumeric c = true ∨ c = ' ' := by
  rw [parse_eq_spec]
  unfold parse_spec
  intro c hc
  rcases List.mem_append.1 hc with hc | hc
  · have hmem := List.mem_of_mem_take hc
    rcases List.mem_map.1 hmem with ⟨d, _, rfl⟩
    by_cases hd : pyIsNumeric d
    · left; rw [if_pos hd]; exact hd
    · right; rw [if_neg hd]
  · exact Or.inr (List.eq_of_mem_replicate hc)

theorem make_sudoku_solver_isOk (s : List Char) :
    (make_sudoku_solver s).isOk = (check_valid_puzzle (parse_puzzle_array s)).isOk := by
  cases h : check_valid_puzzle (parse_puzzle_array s) with
  | error m => simp [make_sudoku_solver, h]; rfl
  | ok u => simp [make_sudoku_solver, h]; rfl

/-! ### Claim C1 -/

/-- C1: over every grid state the candidate total is non-increasing under
a full pass; on every validated input the constructed grid is a fixed
point of a full pass (the loop stops exactly when a pass leaves the total
unchanged, and every mutation strictly decreases the total); and the loop
performs at most 729 - 81 strictly decreasing passes. -/
theorem c1_reduction_terminates (s : List Char)
    (_h : (check_valid_puzzle (parse_puzzle_array s)).isOk = true) :
    (∀ p : Poss, number_of_possibilites (one_pass p) ≤ number_of_possibilites p) ∧
    one_pass (build_possibilities (parse_puzzle_array s)) =
      build_possibilities (parse_puzzle_array s) ∧
    decreasing_passes 730 (initial_possibilities (parse_puzzle_array s)) ≤ 729 - 81 := by
  refine ⟨count_one_pass_le, ?_, ?_⟩
  · unfold build_possibilities
    apply build_loop_stable 730 _ (inv_initial _)
    have := count_initial_le (parse_puzzle_array s)
    omega
  · have h1 := decreasing_passes_le 730 _ (inv_initial (parse_puzzle_array s))
    have h2 := count_initial_le (parse_puzzle_array s)
    omega

/-- Witness for C1: the all-blank input satisfies the hypothesis and the
conclusion. -/
theorem c1_reduction_terminates_witness :
    (check_valid_puzzle (parse_puzzle_array blank_input)).isOk = true ∧
    ((∀ p : Poss, number_of_possibilites (one_pass p) ≤ number_of_possibilites p) ∧
      one_pass (build_possibilities (parse_puzzle_array blank_input)) =
        build_possibilities (parse_puzzle_array blank_input) ∧
      decreasing_passes 730 (initial_possibilities (parse_puzzle_array blank_input)) ≤ 729 - 81) :=
  ⟨by decide, c1_reduction_terminates blank_input (by decide)⟩

/-! ### Claim C2 -/

/-- C2 as stated is refuted by the input "0": the character '0' is not
one of '1'-'9' and is not CR or LF, so the claim requires it to become a
blank cell, but the parser stores it as a given digit. -/
theorem c2_parser_counterexample :
    ('0' ∈ digits19 → False) ∧ '0' ≠ '\n' ∧ '0' ≠ '\r' ∧
    (parse_puzzle_array ['0']).getD 0 ' ' = '0' ∧ '0' ≠ ' ' := by decide

/-- C2 (amended): the parser turns exactly the numeric characters into
given digits, silently skips CR and LF, turns every other character into
a blank, stops scanning at 81 cells and pads with blanks to exactly 81;
the stored grid always has exactly 81 cells, each either a numeric
character or a blank.  Within the ASCII range - the exact scope of the
`pyIsNumeric` fragment - the numeric characters are precisely the ten
decimal digits '0'-'9' (code points 48-57): in particular '0' becomes a
given, not a blank, refuting the spec's "'1'-'9'" wording; outside
ASCII the program also stores other Unicode numerics as givens. -/
theorem c2_parser_amended (s : List Char) :
    parse_puzzle_array s = parse_spec s ∧
    (parse_puzzle_array s).length = 81 ∧
    (∀ n < 128, (pyIsNumeric (Char.ofNat n) = true ↔ 48 ≤ n ∧ n ≤ 57)) ∧
    ∀ c ∈ parse_puzzle_array s, pyIsNumeric c = true ∨ c = ' ' :=
  ⟨parse_eq_spec s, length_parse s, by decide, parse_mem s⟩

/-! ### Claim C10 -/

theorem blank_build :
    build_possibilities (List.replicate 81 ' ') = List.replicate 81 digits19 := by decide

theorem parse_blank {s : List Char} (hlen : s.length = 81)
    (hblank : ∀ c ∈ s, pyIsNumeric c = false ∧ c ≠ '\n' ∧ c ≠ '\r') :
    parse_puzzle_array s = List.replicate 81 ' ' := by
  rw [parse_eq_spec]
  unfold parse_spec
  have hfil : s.filter (fun c => c ≠ '\n' ∧ c ≠ '\r') = s := by
    apply List.filter_eq_self.2
    intro c hc
    simp [(hblank c hc).2.1, (hblank c hc).2.2]
  rw [hfil]
  have hmap : s.map (fun c => if pyIsNumeric c then c else ' ') = List.replicate 81 ' ' := by
    apply List.eq_replicate_iff.2
    constructor
    · rw [List.length_map]; exact hlen
    · intro b hb
      rcases List.mem_map.1 hb with ⟨d, hd, rfl⟩
      rw [if_neg (by rw [(hblank d hd).1]; exact Bool.false_ne_true)]
  rw [hmap, List.take_of_length_le (by simp)]
  simp

/-- C10: an input of 81 blank (non-numeric, non-CR/LF) characters is
accepted, its candidate count is exactly 729, and its reduced puzzle is
81 '.' characters. -/
theorem c10_blank_puzzle (s : List Char) (hlen : s.length = 81)
    (hblank : ∀ c ∈ s, pyIsNumeric c = false ∧ c ≠ '\n' ∧ c ≠ '\r') :
    (make_sudoku_solver s).isOk = true ∧
    number_of_possibilites (build_possibilities (parse_puzzle_array s)) = 729 ∧
    get_reduced_puzzle (build_possibilities (parse_puzzle_array s)) =
      List.replicate 81 '.' := by
  have hp := parse_blank hlen hblank
  refine ⟨?_, ?_, ?_⟩
  · rw [make_sudoku_solver_isOk, hp]; decide
  · rw [hp, blank_build]; decide
  · rw [hp, blank_build]; decide

/-! ### Claim C3: validation order and failure -/

theorem digits19_eq_map : (List.range' 1 9).map Nat.digitChar = digits19 := by decide

theorem valid_unit_iff (cells : List Char) :
    ((List.range' 1 9).all (fun i => cells.count (Nat.digitChar i) ≤ 1) = true) ↔
      ¬ duplicate_in_cells cells := by
  rw [List.all_eq_true]
  unfold duplicate_in_cells
  constructor
  · rintro h ⟨d, hd, hcnt⟩
    rw [← digits19_eq_map] at hd
    rcases List.mem_map.1 hd with ⟨i, hi, rfl⟩
    have := h i hi
    simp only [decide_eq_true_eq] at this
    omega
  · intro h i hi
    simp only [decide_eq_true_eq]
    by_contra hlt
    push_neg at hlt
    exact h ⟨Nat.digitChar i, by rw [← digits19_eq_map]; exact List.mem_map_of_mem _ hi,
      by omega⟩

theorem all_false_iff (cells : List Char) :
    ((List.range' 1 9).all (fun i => cells.count (Nat.digitChar i) ≤ 1) = false) ↔
      duplicate_in_cells cells := by
  have h := valid_unit_iff cells
  constructor
  · intro hf
    by_contra hnd
    rw [h.2 hnd] at hf
    exact Bool.noConfusion hf
  · intro hd
    cases hball : (List.range' 1 9).all (fun i => cells.count (Nat.digitChar i) ≤ 1) with
    | false => rfl
    | true => exact absurd hd (h.1 hball)

theorem check_valid_box_false_iff (arr : List Char) (b : Nat) :
    check_valid_box arr b = false ↔ duplicate_in_cells (box_cells arr b) :=
  all_false_iff (box_cells arr b)

theorem check_valid_row_false_iff (arr : List Char) (r : Nat) :
    check_valid_row arr r = false ↔ duplicate_in_cells (row_cells arr r) :=
  all_false_iff (row_cells arr r)

theorem check_valid_column_false_iff (arr : List Char) (c : Nat) :
    check_valid_column arr c = false ↔ duplicate_in_cells (column_cells arr c) :=
  all_false_iff (column_cells arr c)

/-- The Python validation loop computes exactly the spec-side
first-violation rule: same scanning order, same messages. -/
theorem check_valid_puzzle_eq_spec (arr : List Char) :
    check_valid_puzzle arr = match first_error_spec arr with
      | some m => Except.error m
      | none => Except.ok () := by
  unfold check_valid_puzzle first_error_spec
  have hfun : (fun i =>
      if check_valid_box arr i = false then some "Invalid puzzle. Bad box."
      else if check_valid_row arr i = false then some "Invalid puzzle. Bad row."
      else if check_valid_column arr i = false then some "Invalid puzzle. Bad column."
      else none) =
    (fun i =>
      if duplicate_in_cells (box_cells arr i) then some "Invalid puzzle. Bad box."
      else if duplicate_in_cells (row_cells arr i) then some "Invalid puzzle. Bad row."
      else if duplicate_in_cells (column_cells arr i) then some "Invalid puzzle. Bad column."
      else none) := by
    funext i
    rw [if_congr (check_valid_box_false_iff arr i) rfl
      (if_congr (check_valid_row_false_iff arr i) rfl
        (if_congr (check_valid_column_false_iff arr i) rfl rfl))]
  rw [hfun]

theorem make_sudoku_solver_error {s : List Char} {m : String}
    (h : check_valid_puzzle (parse_puzzle_array s) = Except.error m) :
    make_sudoku_solver s = Except.error m := by
  simp [make_sudoku_solver, h]

/-- C3: an input with a duplicated digit 1-9 among the given cells of
some row, column, or box fails construction with the `ValueError`
(modelled by the error branch) whose message names the offending unit
kind; the message is determined by the spec's scanning order: unit
indices ascending, box before row before column, first violation wins;
and no solver state is produced. -/
theorem c3_validation_rejects_duplicates (s : List Char)
    (h : ∃ u ∈ List.range 9,
      duplicate_in_cells (row_cells (parse_puzzle_array s) u) ∨
      duplicate_in_cells (column_cells (parse_puzzle_array s) u) ∨
      duplicate_in_cells (box_cells (parse_puzzle_array s) u)) :
    ∃ m, make_sudoku_solver s = Except.error m ∧
      first_error_spec (parse_puzzle_array s) = some m ∧
      (m = "Invalid puzzle. Bad box." ∨ m = "Invalid puzzle. Bad row." ∨
        m = "Invalid puzzle. Bad column.") := by
  rcases h with ⟨u, hu, hdup⟩
  have hne : first_error_spec (parse_puzzle_array s) ≠ none := by
    intro hnone
    unfold first_error_spec at hnone
    rw [List.findSome?_eq_none_iff] at hnone
    have := hnone u hu
    rcases hdup with hd | hd | hd <;>
      [skip; skip; (rw [if_pos hd] at this; exact Option.noConfusion this)]
    · by_cases hb : duplicate_in_cells (box_cells (parse_puzzle_array s) u)
      · rw [if_pos hb] at this; exact Option.noConfusion this
      · rw [if_neg hb, if_pos hd] at this; exact Option.noConfusion this
    · by_cases hb : duplicate_in_cells (box_cells (parse_puzzle_array s) u)
      · rw [if_pos hb] at this; exact Option.noConfusion this
      · by_cases hrr : duplicate_in_cells (row_cells (parse_puzzle_array s) u)
        · rw [if_neg hb, if_pos hrr] at this; exact Option.noConfusion this
        · rw [if_neg hb, if_neg hrr, if_pos hd] at this; exact Option.noConfusion this
  rcases Option.ne_none_iff_exists'.1 hne with ⟨m, hm⟩
  refine ⟨m, ?_, hm, ?_⟩
  · apply make_sudoku_solver_error
    rw [check_valid_puzzle_eq_spec, hm]
  · unfold first_error_spec at hm
    rcases List.exists_of_findSome?_eq_some hm with ⟨i, _, hi⟩
    by_cases h1 : duplicate_in_cells (box_cells (parse_puzzle_array s) i)
    · rw [if_pos h1] at hi
      exact Or.inl (Option.some.inj hi).symm
    · rw [if_neg h1] at hi
      by_cases h2 : duplicate_in_cells (row_cells (parse_puzzle_array s) i)
      · rw [if_pos h2] at hi
        exact Or.inr (Or.inl (Option.some.inj hi).symm)
      · rw [if_neg h2] at hi
        by_cases h3 : duplicate_in_cells (column_cells (parse_puzzle_array s) i)
        · rw [if_pos h3] at hi
          exact Or.inr (Or.inr (Option.some.inj hi).symm)
        · rw [if_neg h3] at hi
          exact Option.noConfusion hi

/-- Witness for C3: two '5's in row 0 (also box 0); the box check fires
first. -/
theorem c3_validation_rejects_duplicates_witness :
    (∃ u ∈ List.range 9,
      duplicate_in_cells (row_cells (parse_puzzle_array ['5', '5']) u) ∨
      duplicate_in_cells (column_cells (parse_puzzle_array ['5', '5']) u) ∨
      duplicate_in_cells (box_cells (parse_puzzle_array ['5', '5']) u)) ∧
    (∃ m, make_sudoku_solver ['5', '5'] = Except.error m ∧
      first_error_spec (parse_puzzle_array ['5', '5']) = some m ∧
      (m = "Invalid puzzle. Bad box." ∨ m = "Invalid puzzle. Bad row." ∨
        m = "Invalid puzzle. Bad column.")) :=
  ⟨by decide, c3_validation_rejects_duplicates ['5', '5'] (by decide)⟩

/-! ### Claim C8 -/

/-- C8: `check_valid_solution` is a total boolean query; it returns true
exactly when re-parsing and re-validating the reduced puzzle raises no
error, and it does not require the puzzle to be complete: a fully
unsolved (all-blank) state still validates to true while its reduced
string has 81 unsolved '.' cells. -/
theorem c8_valid_solution_total (st : SudokuSolver) :
    (check_valid_solution st = true ↔
      (check_valid_puzzle (parse_puzzle_array (get_reduced_puzzle st.possibilities))).isOk
        = true) ∧
    check_valid_solution blank_state = true ∧
    (get_reduced_puzzle blank_state.possibilities).count '.' = 81 := by
  have hmain : ∀ st2 : SudokuSolver, check_valid_solution st2 = true ↔
      (check_valid_puzzle (parse_puzzle_array (get_reduced_puzzle st2.possibilities))).isOk
        = true := by
    intro st2
    unfold check_valid_solution
    cases h : make_sudoku_solver (get_reduced_puzzle st2.possibilities) with
    | error m =>
      have hiso := make_sudoku_solver_isOk (get_reduced_puzzle st2.possibilities)
      rw [h] at hiso
      constructor
      · intro hfalse; exact absurd hfalse Bool.false_ne_true
      · intro hok; rw [← hiso] at hok; exact absurd hok Bool.false_ne_true
    | ok st3 =>
      have hiso := make_sudoku_solver_isOk (get_reduced_puzzle st2.possibilities)
      rw [h] at hiso
      constructor
      · intro _; exact hiso.symm
      · intro _; rfl
  refine ⟨hmain st, ?_, by decide⟩
  exact (hmain _).2 (by decide)

/-! ### Pointwise frame lemmas: solved (singleton) cells never change -/

theorem foldl_preserves_getD {α : Type} {g : Poss → α → Poss} {l : List α} {p : Poss}
    {i : Nat} {v : List Char}
    (hstep : ∀ q a, a ∈ l → q.getD i [] = v → (g q a).getD i [] = v)
    (h : p.getD i [] = v) : (l.foldl g p).getD i [] = v := by
  induction l generalizing p with
  | nil => exact h
  | cons a l ih =>
    rw [List.foldl_cons]
    exact ih (fun q b hb hq => hstep q b (List.mem_cons_of_mem a hb) hq)
      (hstep p a (by simp) h)

theorem update_cell_preserves_singleton {f : List Char → List Char}
    (hf : ∀ c, c.length = 1 → f c = c) {q : Poss} {i k : Nat} {v : List Char}
    (hv : v.length = 1) (h : q.getD i [] = v) :
    (update_cell q k f).getD i [] = v := by
  rcases eq_or_ne k i with rfl | hne
  · rcases Nat.lt_or_ge k q.length with hlt | hge
    · rw [getD_update_cell_self f hlt, h, hf v hv]
    · rw [update_cell_of_ge f hge]; exact h
  · rw [getD_update_cell_ne f hne]; exact h

theorem erase_step_fixes_singleton (n : Char) (c : List Char) (h : c.length = 1) :
    erase_step n c = c := by
  unfold erase_step
  rw [if_neg]
  intro hg
  exact hg.1 h

theorem collapse_step_fixes_singleton (n : Char) (c : List Char) (h : c.length = 1) :
    collapse_step n c = c := by
  unfold collapse_step
  rw [if_neg]
  intro hg
  omega

theorem reduce_unit_preserves_singleton {p : Poss} {idxs : List Nat} {i : Nat}
    {v : List Char} (hv : v.length = 1) (h : p.getD i [] = v) :
    (reduce_unit p idxs).getD i [] = v := by
  unfold reduce_unit
  apply foldl_preserves_getD (fun q n _ hq => ?_) h
  unfold eliminate_number
  apply foldl_preserves_getD (fun q2 k _ hq2 => ?_) hq
  exact update_cell_preserves_singleton (fun c hc => erase_step_fixes_singleton n c hc) hv hq2

theorem find_unique_preserves_singleton {p : Poss} {b : Nat} {i : Nat}
    {v : List Char} (hv : v.length = 1) (h : p.getD i [] = v) :
    (find_unique_possibilities_by_box p b).getD i [] = v := by
  unfold find_unique_possibilities_by_box
  apply foldl_preserves_getD (fun q n _ hq => ?_) h
  apply foldl_preserves_getD (fun q2 k _ hq2 => ?_) hq
  exact update_cell_preserves_singleton (fun c hc => collapse_step_fixes_singleton n c hc) hv hq2

theorem one_pass_preserves_singleton {p : Poss} {i : Nat} {v : List Char}
    (hv : v.length = 1) (h : p.getD i [] = v) : (one_pass p).getD i [] = v := by
  unfold one_pass
  apply foldl_preserves_getD
    (fun q b _ hq => find_unique_preserves_singleton hv hq)
  apply foldl_preserves_getD
    (fun q b _ hq => reduce_unit_preserves_singleton hv hq)
  apply foldl_preserves_getD
    (fun q c _ hq => reduce_unit_preserves_singleton hv hq)
  exact foldl_preserves_getD
    (fun q r _ hq => reduce_unit_preserves_singleton hv hq) h

theorem build_loop_preserves_singleton : ∀ (fuel : Nat) {p : Poss} {i : Nat}
    {v : List Char}, v.length = 1 → p.getD i [] = v →
    (build_loop fuel p).getD i [] = v := by
  intro fuel
  induction fuel with
  | zero => intro p i v _ h; exact h
  | succ fuel ih =>
    intro p i v hv h
    rw [build_loop_succ]
    by_cases hc : number_of_possibilites (one_pass p) < number_of_possibilites p
    · rw [if_pos hc]; exact ih hv (one_pass_preserves_singleton hv h)
    · rw [if_neg hc]; exact one_pass_preserves_singleton hv h

/-! ### Claim C9: given digits are never changed -/

theorem make_sudoku_solver_ok {s : List Char} {st : SudokuSolver}
    (h : make_sudoku_solver s = Except.ok st) :
    st.puzzle_array = parse_puzzle_array s ∧
    st.possibilities = build_possibilities (parse_puzzle_array s) := by
  unfold make_sudoku_solver at h
  cases hc : check_valid_puzzle (parse_puzzle_array s) with
  | error m => rw [hc] at h; exact Except.noConfusion h
  | ok u =>
    rw [hc] at h
    simp only [] at h
    have h2 := Except.ok.inj h
    constructor
    · rw [← h2]
    · rw [← h2]

theorem length_build_possibilities (arr : List Char) :
    (build_possibilities arr).length = 81 := by
  unfold build_possibilities
  rw [length_build_loop, length_initial]

theorem getD_reduced {p : Poss} {i : Nat} (h : i < p.length) :
    (get_reduced_puzzle p).getD i '.' =
      if (p.getD i []).length = 1 then (p.getD i []).headD '.' else '.' := by
  unfold get_reduced_puzzle
  have hlen : i < (p.map (fun cell =>
      if cell.length = 1 then cell.headD '.' else '.')).length := by
    rw [List.length_map]; exact h
  rw [getD_eq_getElem hlen, List.getElem_map, getD_eq_getElem h]

/-- C9: a cell whose input character is a given digit keeps the singleton
of that digit through construction, and renders as that digit in the
reduced puzzle. -/
theorem c9_givens_preserved (s : List Char) (st : SudokuSolver) (i : Nat)
    (h1 : make_sudoku_solver s = Except.ok st) (h2 : i < 81)
    (h3 : st.puzzle_array.getD i ' ' ≠ ' ') :
    st.possibilities.getD i [] = [st.puzzle_array.getD i ' '] ∧
    (get_reduced_puzzle st.possibilities).getD i '.' = st.puzzle_array.getD i ' ' := by
  obtain ⟨harr, hposs⟩ := make_sudoku_solver_ok h1
  rw [harr] at h3 ⊢
  rw [hposs]
  set arr := parse_puzzle_array s with harrdef
  have hinit : (initial_possibilities arr).getD i [] = [arr.getD i ' '] := by
    rw [getD_initial arr h2, if_pos h3]
  have hcell : (build_possibilities arr).getD i [] = [arr.getD i ' '] := by
    unfold build_possibilities
    exact build_loop_preserves_singleton 730 (by simp) hinit
  refine ⟨hcell, ?_⟩
  have hlt : i < (build_possibilities arr).length := by
    rw [length_build_possibilities]; exact h2
  rw [getD_reduced hlt, hcell]
  simp

theorem make_no_nine : make_sudoku_solver no_nine_input = Except.ok no_nine_state := by
  have hc : (check_valid_puzzle (parse_puzzle_array no_nine_input)).isOk = true := by decide
  unfold make_sudoku_solver
  cases hch : check_valid_puzzle (parse_puzzle_array no_nine_input) with
  | error m => rw [hch] at hc; exact Bool.noConfusion hc
  | ok u => rfl

/-- Witness for C9: the given '9' at cell 8 of `no_nine_input` survives
to the reduced puzzle. -/
theorem c9_givens_preserved_witness :
    make_sudoku_solver no_nine_input = Except.ok no_nine_state ∧ 8 < 81 ∧
    no_nine_state.puzzle_array.getD 8 ' ' ≠ ' ' ∧
    (no_nine_state.possibilities.getD 8 [] = [no_nine_state.puzzle_array.getD 8 ' '] ∧
      (get_reduced_puzzle no_nine_state.possibilities).getD 8 '.' =
        no_nine_state.puzzle_array.getD 8 ' ') :=
  ⟨make_no_nine, by decide, by decide,
    c9_givens_preserved no_nine_input no_nine_state 8 make_no_nine (by decide) (by decide)⟩

/-! ### Claim C4: candidate sets after construction -/

theorem good_erase_step (n : Char) (c : List Char) (h : GoodCell c) :
    GoodCell (erase_step n c) := by
  refine ⟨erase_step_ne_nil n h.1, ?_, ?_⟩
  · unfold erase_step
    split
    · exact (List.erase_sublist n c).nodup h.2.1
    · exact h.2.1
  · intro d hd
    unfold erase_step at hd
    split at hd
    · exact h.2.2 d ((List.erase_sublist n c).mem hd)
    · exact h.2.2 d hd

theorem good_collapse_step (n : Char) (c : List Char) (h : GoodCell c) :
    GoodCell (collapse_step n c) := by
  unfold collapse_step
  split
  · rename_i hg
    exact ⟨by simp, List.nodup_singleton n, by
      intro d hd
      rw [List.mem_singleton.1 hd]
      exact h.2.2 n hg.2⟩
  · exact h

theorem allCells_initial_good {arr : List Char} (hlen : arr.length = 81)
    (hchars : ∀ c ∈ arr, c = ' ' ∨ c ∈ digits19) :
    AllCells GoodCell (initial_possibilities arr) := by
  intro cell hc
  unfold initial_possibilities at hc
  rcases List.mem_map.1 hc with ⟨i, hi, rfl⟩
  split
  · rename_i hgiven
    have hmem : arr.getD i ' ' ∈ arr := getD_mem (by rw [hlen]; exact List.mem_range.1 hi)
    rcases hchars _ hmem with hblank | hdig
    · exact absurd hblank hgiven
    · exact ⟨by simp, List.nodup_singleton _, by
        intro d hd
        rw [List.mem_singleton.1 hd]
        exact hdig⟩
  · exact ⟨by decide, by decide, by decide⟩

/-- C4 as stated is refuted by the input "0": it passes validation, and
cell 0's candidate list after construction is the singleton containing
'0', which is not a subset of the digits 1-9. -/
theorem c4_candidates_counterexample :
    (make_sudoku_solver ['0']).isOk = true ∧
    (build_possibilities (parse_puzzle_array ['0'])).getD 0 [] = ['0'] ∧
    ('0' ∈ digits19 → False) := by
  refine ⟨?_, by decide, by decide⟩
  rw [make_sudoku_solver_isOk]
  decide

/-- C4 (amended): for every input that passes validation and whose
parsed grid contains no numeric character outside '1'-'9', every
candidate list after construction is non-empty, duplicate-free and a
subset of the digits 1-9, and a cell renders as solved in the reduced
puzzle exactly when its candidate list has exactly one member. -/
theorem c4_candidates_amended (s : List Char) (st : SudokuSolver)
    (h1 : make_sudoku_solver s = Except.ok st)
    (h2 : ∀ c ∈ st.puzzle_array, c = ' ' ∨ c ∈ digits19) :
    ∀ i, i < 81 →
      st.possibilities.getD i [] ≠ [] ∧
      (st.possibilities.getD i []).Nodup ∧
      (∀ d ∈ st.possibilities.getD i [], d ∈ digits19) ∧
      ((st.possibilities.getD i []).length = 1 ↔
        (get_reduced_puzzle st.possibilities).getD i '.' ≠ '.') := by
  obtain ⟨harr, hposs⟩ := make_sudoku_solver_ok h1
  rw [harr] at h2
  intro i hi
  have hgood : AllCells GoodCell st.possibilities := by
    rw [hposs]
    unfold build_possibilities
    exact allCells_build_loop good_erase_step good_collapse_step 730
      (allCells_initial_good (length_parse s) h2)
  have hlen : st.possibilities.length = 81 := by
    rw [hposs]; exact length_build_possibilities _
  have hlt : i < st.possibilities.length := by omega
  have hcell := hgood (st.possibilities.getD i [])
    (@getD_mem (List Char) st.possibilities i [] hlt)
  refine ⟨hcell.1, hcell.2.1, hcell.2.2, ?_⟩
  rw [getD_reduced hlt]
  constructor
  · intro hone
    rw [if_pos hone]
    rcases List.length_eq_one.1 hone with ⟨d, hd⟩
    have hdmem : d ∈ digits19 := hcell.2.2 d (by rw [hd]; simp)
    rw [hd]
    simp only [List.headD_cons]
    intro heq
    rw [heq] at hdmem
    exact absurd hdmem (by decide)
  · intro hne
    by_contra hnot
    rw [if_neg hnot] at hne
    exact hne rfl

theorem make_blank : make_sudoku_solver blank_input = Except.ok blank_state := by
  have hpb : parse_puzzle_array blank_input = List.replicate 81 ' ' := by decide
  unfold make_sudoku_solver
  cases hch : check_valid_puzzle (parse_puzzle_array blank_input) with
  | error m =>
    have hok : (check_valid_puzzle (parse_puzzle_array blank_input)).isOk = true := by decide
    rw [hch] at hok
    exact Bool.noConfusion hok
  | ok u =>
    simp only []
    rw [hpb, blank_build]
    rfl

/-- Witness for C4 (amended) at the all-blank input. -/
theorem c4_candidates_amended_witness :
    make_sudoku_solver blank_input = Except.ok blank_state ∧
    (∀ c ∈ blank_state.puzzle_array, c = ' ' ∨ c ∈ digits19) ∧
    (∀ i, i < 81 →
      blank_state.possibilities.getD i [] ≠ [] ∧
      (blank_state.possibilities.getD i []).Nodup ∧
      (∀ d ∈ blank_state.possibilities.getD i [], d ∈ digits19) ∧
      ((blank_state.possibilities.getD i []).length = 1 ↔
        (get_reduced_puzzle blank_state.possibilities).getD i '.' ≠ '.')) :=
  ⟨make_blank, by decide,
    c4_candidates_amended blank_input blank_state make_blank (by decide)⟩

/-! ### Claim C5: hidden-single detection by box -/

theorem box_indices_nodup : ∀ b < 9, (box_indices b).Nodup := by decide

theorem digitChar_pyInt : ∀ j < 10, pyInt (Nat.digitChar j) = j := by decide

theorem digitChar_mem_digits19 : ∀ j, 1 ≤ j → j < 10 → Nat.digitChar j ∈ digits19 := by
  decide

theorem digits19_ne_space : ∀ d ∈ digits19, d ≠ ' ' := by decide

theorem digits19_index : ∀ d ∈ digits19,
    ∃ j ∈ List.range 10, Nat.digitChar j = d ∧ 1 ≤ j := by decide

theorem update_cell_getD_fix {f : List Char → List Char} {q : Poss} {i k : Nat}
    {v : List Char} (hfix : f v = v) (h : q.getD i [] = v) :
    (update_cell q k f).getD i [] = v := by
  rcases eq_or_ne k i with rfl | hne
  · rcases Nat.lt_or_ge k q.length with hlt | hge
    · rw [getD_update_cell_self f hlt, h, hfix]
    · rw [update_cell_of_ge f hge]; exact h
  · rw [getD_update_cell_ne f hne]; exact h

theorem pool_cons (p : Poss) (k : Nat) (rest : List Nat) :
    pool p (k :: rest) =
      (if 1 < (p.getD k []).length then p.getD k [] else []) ++ pool p rest := by
  unfold pool
  rw [List.flatMap_cons]

theorem solved_values_cons (p : Poss) (k : Nat) (rest : List Nat) :
    solved_values p (k :: rest) =
      (if 1 < (p.getD k []).length then [] else [(p.getD k []).headD ' ']) ++
        solved_values p rest := by
  unfold solved_values
  rw [List.flatMap_cons]

theorem scan_eq (p : Poss) : ∀ (idxs : List Nat) (a1 a2 : List Char),
    idxs.foldl (fun acc i =>
      let c := p.getD i []
      if 1 < c.length then (acc.1 ++ c, acc.2) else (acc.1, acc.2 ++ [c.headD ' ']))
      (a1, a2) = (a1 ++ pool p idxs, a2 ++ solved_values p idxs) := by
  intro idxs
  induction idxs with
  | nil => intro a1 a2; simp [pool, solved_values]
  | cons k rest ih =>
    intro a1 a2
    rw [List.foldl_cons, pool_cons, solved_values_cons]
    by_cases hk : 1 < (p.getD k []).length
    · have hstep : (let c := p.getD k []
        if 1 < c.length then ((a1, a2).1 ++ c, (a1, a2).2)
        else ((a1, a2).1, (a1, a2).2 ++ [c.headD ' '])) = (a1 ++ p.getD k [], a2) := by
        simp only [if_pos hk]
      rw [hstep, ih, if_pos hk, if_pos hk, List.append_assoc, List.nil_append]
    · have hstep : (let c := p.getD k []
        if 1 < c.length then ((a1, a2).1 ++ c, (a1, a2).2)
        else ((a1, a2).1, (a1, a2).2 ++ [c.headD ' '])) =
          (a1, a2 ++ [(p.getD k []).headD ' ']) := by
        simp only [if_neg hk]
      rw [hstep, ih, if_neg hk, if_neg hk, List.nil_append, List.append_assoc]

/-- `find_unique_possibilities_by_box` in terms of the named pool,
solved-value and selection functions. -/
theorem find_unique_eq (p : Poss) (b : Nat) :
    find_unique_possibilities_by_box p b =
      (numbers_to_reduce p b).foldl
        (fun q n => (box_indices b).foldl
          (fun q2 k => update_cell q2 k (collapse_step n)) q) p := by
  unfold find_unique_possibilities_by_box numbers_to_reduce ntr_filter collapse_step
  simp only []
  rw [scan_eq]
  simp only [List.nil_append]

theorem count_pool (p : Poss) (d : Char) : ∀ idxs : List Nat,
    (pool p idxs).count d =
      (idxs.map (fun j =>
        (if 1 < (p.getD j []).length then p.getD j [] else []).count d)).sum := by
  intro idxs
  induction idxs with
  | nil => simp [pool]
  | cons k rest ih =>
    rw [pool_cons, List.count_append, ih, List.map_cons, List.sum_cons]

theorem count_nodup (c : List Char) (d : Char) (h : c.Nodup) :
    c.count d = if d ∈ c then 1 else 0 := by
  split
  · rename_i hm
    have h1 : c.count d ≤ 1 := List.nodup_iff_count_le_one.1 h d
    have h2 : 0 < c.count d := List.count_pos_iff.2 hm
    omega
  · rename_i hm
    exact List.count_eq_zero.2 hm

theorem sum_map_single {α : Type} {l : List α} {f : α → Nat} {i0 : α}
    (hnd : l.Nodup) (hi : i0 ∈ l) (hone : f i0 = 1)
    (hzero : ∀ j ∈ l, j ≠ i0 → f j = 0) : (l.map f).sum = 1 := by
  induction l with
  | nil => cases hi
  | cons a rest ih =>
    rw [List.map_cons, List.sum_cons]
    rcases List.mem_cons.1 hi with rfl | hmem
    · have hz : ∀ j ∈ rest, f j = 0 := fun j hj =>
        hzero j (List.mem_cons_of_mem _ hj)
          (by rintro rfl; exact (List.nodup_cons.1 hnd).1 hj)
      have hsum : (rest.map f).sum = 0 := by
        apply List.sum_eq_zero
        intro x hx
        rcases List.mem_map.1 hx with ⟨j, hj, rfl⟩
        exact hz j hj
      rw [hone, hsum]
    · have ha : f a = 0 := hzero a (by simp)
        (by rintro rfl; exact (List.nodup_cons.1 hnd).1 hmem)
      have := ih (List.nodup_cons.1 hnd).2 hmem
        (fun j hj hne => hzero j (List.mem_cons_of_mem _ hj) hne)
      rw [ha, this]

theorem sum_map_two {α : Type} {l : List α} {f : α → Nat} {i j : α}
    (hnd : l.Nodup) (hi : i ∈ l) (hj : j ∈ l) (hne : i ≠ j)
    (h1 : 1 ≤ f i) (h2 : 1 ≤ f j) : 2 ≤ (l.map f).sum := by
  induction l with
  | nil => cases hi
  | cons a rest ih =>
    rw [List.map_cons, List.sum_cons]
    rcases List.mem_cons.1 hi with rfl | hi2
    · have hjr : j ∈ rest := by
        rcases List.mem_cons.1 hj with h | h
        · exact absurd h.symm hne
        · exact h
      have hle : f j ≤ (rest.map f).sum :=
        List.single_le_sum (fun x _ => Nat.zero_le x) _ (List.mem_map_of_mem f hjr)
      omega
    · rcases List.mem_cons.1 hj with rfl | hj2
      · have hle : f i ≤ (rest.map f).sum :=
          List.single_le_sum (fun x _ => Nat.zero_le x) _ (List.mem_map_of_mem f hi2)
        omega
      · have := ih (List.nodup_cons.1 hnd).2 hi2 hj2
        omega

theorem cell_nodup {p : Poss} (hnodup : ∀ c ∈ p, c.Nodup) (j : Nat) :
    (p.getD j []).Nodup := by
  rcases Nat.lt_or_ge j p.length with hlt | hge
  · exact hnodup _ (@getD_mem (List Char) p j [] hlt)
  · rw [List.getD_eq_default _ _ hge]
    exact List.nodup_nil

theorem pool_count_one {p : Poss} {b i : Nat} {d : Char} (hb : b < 9)
    (hnodup : ∀ c ∈ p, c.Nodup) (hhs : hidden_single p b i d) :
    (pool p (box_indices b)).count d = 1 := by
  rw [count_pool]
  apply sum_map_single (box_indices_nodup b hb) hhs.1
  · show (if 1 < (p.getD i []).length then p.getD i [] else []).count d = 1
    rw [if_pos hhs.2.1, count_nodup _ _ (cell_nodup hnodup i), if_pos hhs.2.2.1]
  · intro j hj hne
    show (if 1 < (p.getD j []).length then p.getD j [] else []).count d = 0
    by_cases hopen : 1 < (p.getD j []).length
    · rw [if_pos hopen, count_nodup _ _ (cell_nodup hnodup j),
        if_neg (hhs.2.2.2.1 j hj hne hopen)]
    · rw [if_neg hopen]
      rfl

theorem not_mem_solved_values {p : Poss} {b i : Nat} {d : Char}
    (hd : d ∈ digits19) (hhs : hidden_single p b i d) :
    d ∉ solved_values p (box_indices b) := by
  intro hmem
  unfold solved_values at hmem
  rcases List.mem_flatMap.1 hmem with ⟨j, hj, hx⟩
  simp only [] at hx
  split at hx
  · exact List.not_mem_nil d hx
  · rename_i hnopen
    rw [List.mem_singleton] at hx
    rcases hq : p.getD j [] with _ | ⟨a, rest⟩
    · rw [hq] at hx
      exact digits19_ne_space d hd (by rw [hx]; rfl)
    · rw [hq] at hnopen hx
      rcases rest with _ | ⟨a2, rest2⟩
      · apply hhs.2.2.2.2 j hj (by rw [hq]; rfl)
        rw [hq]
        simp only [List.headD_cons] at hx
        rw [hx]
      · exfalso
        apply hnopen
        simp only [List.length_cons]
        omega

theorem fire_hidden_single {p : Poss} {b i : Nat} {d2 : Char} (hb : b < 9)
    (hi : i ∈ box_indices b)
    (hcnt : (pool p (box_indices b)).count d2 = 1)
    (hns : d2 ∉ solved_values p (box_indices b))
    (hopen : 1 < (p.getD i []).length) (hmem : d2 ∈ p.getD i []) :
    hidden_single p b i d2 := by
  refine ⟨hi, hopen, hmem, ?_, ?_⟩
  · intro j hj hne hopenj hmemj
    have h2 : 2 ≤ (pool p (box_indices b)).count d2 := by
      rw [count_pool]
      apply sum_map_two (box_indices_nodup b hb) hi hj (Ne.symm hne)
      · show 1 ≤ (if 1 < (p.getD i []).length then p.getD i [] else []).count d2
        rw [if_pos hopen]
        exact List.count_pos_iff.2 hmem
      · show 1 ≤ (if 1 < (p.getD j []).length then p.getD j [] else []).count d2
        rw [if_pos hopenj]
        exact List.count_pos_iff.2 hmemj
    omega
  · intro j hj hlone hcell
    apply hns
    unfold solved_values
    apply List.mem_flatMap.2
    refine ⟨j, hj, ?_⟩
    simp only []
    rw [if_neg (by omega), hcell]
    simp

theorem ntr_filter_eq_some {p : Poss} {b j : Nat} {n : Char}
    (h : ntr_filter p b j = some n) :
    n = Nat.digitChar j ∧ (pool p (box_indices b)).count (Nat.digitChar j) = 1 ∧
      Nat.digitChar j ∉ solved_values p (box_indices b) := by
  unfold ntr_filter at h
  split at h
  · rename_i hc
    exact ⟨(Option.some.inj h).symm, hc.1, hc.2⟩
  · exact Option.noConfusion h

theorem range_ten_split {jd : Nat} (h : jd < 10) :
    List.range 10 = List.range jd ++ jd :: List.range' (jd + 1) (9 - jd) := by
  have h1 : jd :: List.range' (jd + 1) (9 - jd) = List.range' jd (10 - jd) := by
    have h2 : 10 - jd = (9 - jd) + 1 := by omega
    rw [h2]
    rfl
  rw [h1, List.range_eq_range', List.range_eq_range']
  have h3 := List.range'_append 0 jd (10 - jd) 1
  simp only [Nat.one_mul, Nat.zero_add] at h3
  rw [h3]
  have h4 : 10 - jd + jd = 10 := by omega
  rw [h4]

theorem ntr_split {p : Poss} {b jd : Nat} (hjd : jd < 10)
    (hfire : ntr_filter p b jd = some (Nat.digitChar jd)) :
    numbers_to_reduce p b =
      (List.range jd).filterMap (ntr_filter p b) ++
        Nat.digitChar jd :: (List.range' (jd + 1) (9 - jd)).filterMap (ntr_filter p b) := by
  unfold numbers_to_reduce
  rw [range_ten_split hjd, List.filterMap_append, List.filterMap_cons, hfire]

theorem length_collapse_fold (n : Char) (idxs : List Nat) (q : Poss) :
    (idxs.foldl (fun q2 k => update_cell q2 k (collapse_step n)) q).length = q.length :=
  length_foldl (fun q2 k => length_update_cell q2 k _) q

theorem collapse_fold_preserve {n : Char} {idxs : List Nat} {q : Poss} {i : Nat}
    {v : List Char} (hfix : collapse_step n v = v) (h : q.getD i [] = v) :
    (idxs.foldl (fun q2 k => update_cell q2 k (collapse_step n)) q).getD i [] = v :=
  foldl_preserves_getD (fun _ _ _ hq2 => update_cell_getD_fix hfix hq2) h

theorem collapse_step_fix_of_not_mem {n : Char} {v : List Char} (h : n ∉ v) :
    collapse_step n v = v := by
  unfold collapse_step
  rw [if_neg]
  intro hg
  exact h hg.2

theorem collapse_fold_sets {n : Char} {idxs : List Nat} {q : Poss} {i : Nat}
    (hnd : idxs.Nodup) (hi : i ∈ idxs) (hlen : i < q.length)
    (hopen : 1 < (q.getD i []).length) (hmem : n ∈ q.getD i []) :
    (idxs.foldl (fun q2 k => update_cell q2 k (collapse_step n)) q).getD i [] = [n] := by
  rcases List.append_of_mem hi with ⟨s, t, rfl⟩
  have hnd2 : (i :: (s ++ t)).Nodup := (List.perm_middle.nodup_iff).1 hnd
  have hnotmem : i ∉ s ∧ i ∉ t := by
    have hn := (List.nodup_cons.1 hnd2).1
    exact ⟨fun hs => hn (List.mem_append.2 (Or.inl hs)),
      fun ht => hn (List.mem_append.2 (Or.inr ht))⟩
  rw [List.foldl_append, List.foldl_cons]
  have hs1 : (s.foldl (fun q2 k => update_cell q2 k (collapse_step n)) q).getD i []
      = q.getD i [] := by
    apply foldl_preserves_getD (fun q2 k hk hq2 => ?_) rfl
    have hki : k ≠ i := by
      intro he
      rw [he] at hk
      exact hnotmem.1 hk
    rw [getD_update_cell_ne _ hki]
    exact hq2
  have hlen1 : i < (s.foldl (fun q2 k => update_cell q2 k (collapse_step n)) q).length := by
    rw [length_collapse_fold]
    exact hlen
  have hs2 : (update_cell (s.foldl (fun q2 k => update_cell q2 k (collapse_step n)) q) i
      (collapse_step n)).getD i [] = [n] := by
    rw [getD_update_cell_self _ hlen1, hs1]
    unfold collapse_step
    rw [if_pos ⟨hopen, hmem⟩]
  exact foldl_preserves_getD (fun q2 k hk hq2 =>
    update_cell_preserves_singleton
      (fun c hc => collapse_step_fixes_singleton n c hc) rfl hq2) hs2

/-- C5 (amended): within a box, if `d` is a hidden single at open cell
`i` (it appears in no other open cell of the box and is not a solved
value of the box) and no smaller digit is also a hidden single at that
same cell, the hidden-single stage collapses cell `i` to exactly `[d]`.
(When several digits are hidden singles at the same cell, the code keeps
the smallest; the claim's unconditional version fails, see the
counterexample.) -/
theorem c5_hidden_single_amended (p : Poss) (b i : Nat) (d : Char)
    (hlen : p.length = 81) (hb : b < 9)
    (hnodup : ∀ c ∈ p, c.Nodup)
    (hdigits : ∀ c ∈ p, 1 < c.length → ∀ x ∈ c, x ∈ digits19)
    (hd : d ∈ digits19)
    (hhs : hidden_single p b i d)
    (hmin : ∀ d2 ∈ digits19, pyInt d2 < pyInt d → ¬ hidden_single p b i d2) :
    (find_unique_possibilities_by_box p b).getD i [] = [d] := by
  rcases digits19_index d hd with ⟨jd, hjd10, hjdeq, hjd1⟩
  have hjd : jd < 10 := List.mem_range.1 hjd10
  have hcnt := pool_count_one hb hnodup hhs
  have hns := not_mem_solved_values hd hhs
  have hfire : ntr_filter p b jd = some (Nat.digitChar jd) := by
    unfold ntr_filter
    rw [if_pos ⟨by rw [hjdeq]; exact hcnt, by rw [hjdeq]; exact hns⟩]
  have hi81 : i < 81 := (unit_indices_lt b hb).2.2 i hhs.1
  rw [find_unique_eq, ntr_split hjd hfire, List.foldl_append, List.foldl_cons]
  have hA : (((List.range jd).filterMap (ntr_filter p b)).foldl
      (fun q n => (box_indices b).foldl
        (fun q2 k => update_cell q2 k (collapse_step n)) q) p).getD i []
      = p.getD i [] := by
    apply foldl_preserves_getD (fun q n hn hq => ?_) rfl
    rcases List.mem_filterMap.1 hn with ⟨j2, hj2r, hj2f⟩
    have hj2lt : j2 < jd := List.mem_range.1 hj2r
    rcases ntr_filter_eq_some hj2f with ⟨rfl, hc1, hc2⟩
    have hnot : Nat.digitChar j2 ∉ p.getD i [] := by
      intro hmem2
      have hd2dig : Nat.digitChar j2 ∈ digits19 :=
        hdigits _ (@getD_mem (List Char) p i [] (by omega)) hhs.2.1 _ hmem2
      have hd2hs : hidden_single p b i (Nat.digitChar j2) :=
        fire_hidden_single hb hhs.1 hc1 hc2 hhs.2.1 hmem2
      have hpy : pyInt (Nat.digitChar j2) < pyInt d := by
        have e1 : pyInt (Nat.digitChar j2) = j2 := digitChar_pyInt j2 (by omega)
        have e2 : pyInt d = jd := by rw [← hjdeq]; exact digitChar_pyInt jd hjd
        omega
      exact hmin _ hd2dig hpy hd2hs
    exact collapse_fold_preserve (collapse_step_fix_of_not_mem hnot) hq
  have hlenA : (((List.range jd).filterMap (ntr_filter p b)).foldl
      (fun q n => (box_indices b).foldl
        (fun q2 k => update_cell q2 k (collapse_step n)) q) p).length = 81 := by
    rw [length_foldl (fun q2 n => length_collapse_fold n (box_indices b) q2)]
    exact hlen
  have h2 := collapse_fold_sets (n := Nat.digitChar jd) (box_indices_nodup b hb) hhs.1
    (by rw [hlenA]; exact hi81)
    (by rw [hA]; exact hhs.2.1)
    (by rw [hA, hjdeq]; exact hhs.2.2.1)
  rw [hjdeq] at h2 ⊢
  exact foldl_preserves_getD (fun q n hn hq =>
    collapse_fold_preserve (collapse_step_fixes_singleton n [d] rfl) hq) h2

/-- C5 as stated is refuted: on `double_single_input`, at the state
entering the hidden-single stage of the first pass, the digit '2'
satisfies the claim's hidden-single condition for box 0 at cell 0 (it
appears in exactly one open cell of the box and is not a solved value),
yet the stage does not collapse cell 0 to the singleton containing '2'
(it collapses it to ['1'], since '1' is also a hidden single there). -/
theorem c5_hidden_single_counterexample :
    (check_valid_puzzle (parse_puzzle_array double_single_input)).isOk = true ∧
    hidden_single double_single_stage 0 0 '2' ∧
    (find_unique_possibilities_by_box double_single_stage 0).getD 0 [] ≠ ['2'] := by
  refine ⟨by decide, by decide, by decide⟩

/-- Witness for C5 (amended): on the same stage state, '1' is the
smallest hidden single at cell 0 of box 0 and the stage collapses the
cell to ['1']. -/
theorem c5_hidden_single_amended_witness :
    double_single_stage.length = 81 ∧ 0 < 9 ∧
    (∀ c ∈ double_single_stage, c.Nodup) ∧
    (∀ c ∈ double_single_stage, 1 < c.length → ∀ x ∈ c, x ∈ digits19) ∧
    '1' ∈ digits19 ∧ hidden_single double_single_stage 0 0 '1' ∧
    (∀ d2 ∈ digits19, pyInt d2 < pyInt '1' → ¬ hidden_single double_single_stage 0 0 d2) ∧
    (find_unique_possibilities_by_box double_single_stage 0).getD 0 [] = ['1'] :=
  ⟨by decide, by decide, by decide, by decide, by decide, by decide, by decide,
    c5_hidden_single_amended double_single_stage 0 0 '1' (by decide) (by decide)
      (by decide) (by decide) (by decide) (by decide) (by decide)⟩

/-! ### Claim C7: hint rendering -/

theorem digitChar_pyInt_inv : ∀ c ∈ digits19, Nat.digitChar (pyInt c) = c := by decide

theorem pyInt_bounds : ∀ c ∈ digits19, 1 ≤ pyInt c ∧ pyInt c ≤ 9 := by decide

theorem digits19_pairwise : digits19.Pairwise (fun a b => pyInt a < pyInt b) := by decide

theorem flatMap_congr_on {l : List Nat} {f g : Nat → List Char}
    (h : ∀ p ∈ l, f p = g p) : l.flatMap f = l.flatMap g := by
  induction l with
  | nil => rfl
  | cons a rest ih =>
    rw [List.flatMap_cons, List.flatMap_cons, h a (by simp),
      ih (fun p hp => h p (List.mem_cons_of_mem a hp))]

theorem pad_cells_eq : ∀ (n i : Nat),
    pad_cells i n = (List.range' i n).flatMap
      (fun p => ' ' :: (if p % 3 = 0 then ['\n'] else [])) := by
  intro n
  induction n with
  | zero => intro i; rfl
  | succ n ih =>
    intro i
    show ' ' :: ((if i % 3 = 0 then ['\n'] else []) ++ pad_cells (i + 1) n) = _
    rw [show List.range' i (n + 1) = i :: List.range' (i + 1) n from rfl,
      List.flatMap_cons, ih (i + 1)]
    rfl

theorem getLastD_irrel {α : Type} {l : List α} (h : l ≠ []) (d1 d2 : α) :
    l.getLastD d1 = l.getLastD d2 := by
  cases l with
  | nil => exact absurd rfl h
  | cons a t => rw [List.getLastD_cons, List.getLastD_cons]

theorem getLastD_mem {α : Type} : ∀ {l : List α}, l ≠ [] → ∀ d, l.getLastD d ∈ l := by
  intro l
  induction l with
  | nil => intro h; exact absurd rfl h
  | cons a t ih =>
    intro _ d
    rw [List.getLastD_cons]
    cases t with
    | nil => simp
    | cons b t2 =>
      exact List.mem_cons_of_mem a (ih (List.cons_ne_nil b t2) a)

theorem le_getLastD_of_pairwise : ∀ (l : List Char),
    l.Pairwise (fun a b => pyInt a < pyInt b) →
    ∀ x ∈ l, pyInt x ≤ pyInt (l.getLastD ' ') := by
  intro l
  induction l with
  | nil => intro _ x hx; cases hx
  | cons c cs ih =>
    intro hpw x hx
    have hrel : ∀ y ∈ cs, pyInt c < pyInt y := (List.pairwise_cons.1 hpw).1
    cases hcs : cs with
    | nil =>
      rw [hcs] at hx
      rcases List.mem_cons.1 hx with rfl | hx2
      · rfl
      · cases hx2
    | cons b t =>
      have hne : cs ≠ [] := by rw [hcs]; exact List.cons_ne_nil b t
      have hlast : (c :: cs).getLastD ' ' = cs.getLastD ' ' := by
        rw [List.getLastD_cons]
        exact getLastD_irrel hne c ' '
      rw [← hcs, hlast]
      rcases List.mem_cons.1 hx with rfl | hx2
      · have hmem : cs.getLastD ' ' ∈ cs := getLastD_mem hne ' '
        exact le_of_lt (hrel _ hmem)
      · exact ih (List.pairwise_cons.1 hpw).2 x hx2

/-- The letter loop of `build_hints_string` on a strictly ascending list
of digit characters, all at positions between `idx` and `hi` with the
last exactly at `hi`, produces the spec's keypad block truncated at
position `hi`. -/
theorem build_hints_aux_eq : ∀ (cell : List Char) (idx hi : Nat),
    cell.Pairwise (fun a b => pyInt a < pyInt b) →
    (∀ c ∈ cell, c ∈ digits19) →
    (∀ c ∈ cell, idx ≤ pyInt c) →
    (∀ c ∈ cell, pyInt c ≤ hi) →
    (cell = [] → hi + 1 ≤ idx) →
    (cell ≠ [] → ∃ cl ∈ cell, pyInt cl = hi) →
    1 ≤ idx → hi ≤ 9 →
    build_hints_aux cell idx = (List.range' idx (hi + 1 - idx)).flatMap (blockf cell) := by
  intro cell
  induction cell with
  | nil =>
    intro idx hi _ _ _ _ hnil _ _ _
    rw [show hi + 1 - idx = 0 from by have := hnil rfl; omega]
    rfl
  | cons c cs ih =>
    intro idx hi hpw hdig hge hle _ hlast h1 hhi9
    have hcd : c ∈ digits19 := hdig c (by simp)
    have hv9 := pyInt_bounds c hcd
    have hvi : idx ≤ pyInt c := hge c (by simp)
    have hvhi : pyInt c ≤ hi := hle c (by simp)
    have hrel : ∀ y ∈ cs, pyInt c < pyInt y := (List.pairwise_cons.1 hpw).1
    have hsplit : List.range' idx (hi + 1 - idx) =
        List.range' idx (pyInt c - idx) ++ List.range' (pyInt c) (hi + 1 - pyInt c) := by
      have happ := List.range'_append idx (pyInt c - idx) (hi + 1 - pyInt c) 1
      simp only [Nat.one_mul] at happ
      rw [show idx + (pyInt c - idx) = pyInt c from by omega] at happ
      rw [show hi + 1 - idx = hi + 1 - pyInt c + (pyInt c - idx) from by omega]
      exact happ.symm
    have hrange2 : List.range' (pyInt c) (hi + 1 - pyInt c) =
        pyInt c :: List.range' (pyInt c + 1) (hi - pyInt c) := by
      rw [show hi + 1 - pyInt c = (hi - pyInt c) + 1 from by omega]
      rfl
    rw [hsplit, List.flatMap_append, hrange2, List.flatMap_cons]
    show ((pad_cells idx (pyInt c - idx) ++ [c]) ++
        (if pyInt c % 3 = 0 then ['\n'] else [])) ++ build_hints_aux cs (pyInt c + 1) = _
    have hp1 : pad_cells idx (pyInt c - idx) =
        (List.range' idx (pyInt c - idx)).flatMap (blockf (c :: cs)) := by
      rw [pad_cells_eq]
      apply flatMap_congr_on
      intro p hp
      rcases List.mem_range'_1.1 hp with ⟨hp1', hp2'⟩
      have hpv : p < pyInt c := by omega
      have hnotmem : Nat.digitChar p ∉ c :: cs := by
        intro hmem
        have hpy : pyInt (Nat.digitChar p) = p := digitChar_pyInt p (by omega)
        rcases List.mem_cons.1 hmem with he | hmem2
        · rw [← he, hpy] at hpv
          exact lt_irrefl p hpv
        · have := hrel _ hmem2
          rw [hpy] at this
          omega
      unfold blockf
      rw [if_neg hnotmem]
      rfl
    have hp2 : blockf (c :: cs) (pyInt c) =
        [c] ++ (if pyInt c % 3 = 0 then ['\n'] else []) := by
      unfold blockf
      have hcv : Nat.digitChar (pyInt c) = c := digitChar_pyInt_inv c hcd
      rw [hcv, if_pos (by simp)]
    have hp3 : build_hints_aux cs (pyInt c + 1) =
        (List.range' (pyInt c + 1) (hi - pyInt c)).flatMap (blockf (c :: cs)) := by
      have hcs_last : cs ≠ [] → ∃ cl ∈ cs, pyInt cl = hi := by
        intro hne
        rcases hlast (List.cons_ne_nil c cs) with ⟨cl, hcl, hclv⟩
        rcases List.mem_cons.1 hcl with rfl | hcl2
        · exfalso
          rcases List.exists_mem_of_ne_nil cs hne with ⟨y, hy⟩
          have := hrel y hy
          have := hle y (List.mem_cons_of_mem _ hy)
          omega
        · exact ⟨cl, hcl2, hclv⟩
      have hcs_nil : cs = [] → hi + 1 ≤ pyInt c + 1 := by
        intro hne
        rcases hlast (List.cons_ne_nil c cs) with ⟨cl, hcl, hclv⟩
        rcases List.mem_cons.1 hcl with rfl | hcl2
        · omega
        · rw [hne] at hcl2; cases hcl2
      rw [ih (pyInt c + 1) hi (List.pairwise_cons.1 hpw).2
        (fun x hx => hdig x (List.mem_cons_of_mem _ hx))
        (fun x hx => hrel x hx)
        (fun x hx => hle x (List.mem_cons_of_mem _ hx))
        hcs_nil hcs_last (by omega) hhi9]
      rw [show hi + 1 - (pyInt c + 1) = hi - pyInt c from by omega]
      apply flatMap_congr_on
      intro p hp
      rcases List.mem_range'_1.1 hp with ⟨hp1', hp2'⟩
      have hpy : pyInt (Nat.digitChar p) = p := digitChar_pyInt p (by omega)
      unfold blockf
      by_cases hm : Nat.digitChar p ∈ cs
      · rw [if_pos hm, if_pos (List.mem_cons_of_mem c hm)]
      · have hnm : Nat.digitChar p ∉ c :: cs := by
          intro hmem
          rcases List.mem_cons.1 hmem with he | hm2
          · rw [← he, hpy] at hp1'
            omega
          · exact hm hm2
        rw [if_neg hm, if_neg hnm]
    rw [hp1, hp3, hp2]
    simp [List.append_assoc]

/-- The whole hint string of an open cell: positions 1 up to the last
candidate. -/
theorem build_hints_string_eq {cell : List Char} (hsub : List.Sublist cell digits19)
    (hne : cell ≠ []) :
    build_hints_string cell = block_spec_upto cell 1 (pyInt (cell.getLastD ' ')) := by
  have hpw : cell.Pairwise (fun a b => pyInt a < pyInt b) :=
    digits19_pairwise.sublist hsub
  have hdig : ∀ c ∈ cell, c ∈ digits19 := fun c hc => hsub.subset hc
  have hlastmem : cell.getLastD ' ' ∈ cell := getLastD_mem hne ' '
  unfold build_hints_string block_spec_upto
  exact build_hints_aux_eq cell 1 (pyInt (cell.getLastD ' ')) hpw hdig
    (fun c hc => (pyInt_bounds c (hdig c hc)).1)
    (fun c hc => le_getLastD_of_pairwise cell hpw c hc)
    (fun h => absurd h hne)
    (fun _ => ⟨cell.getLastD ' ', hlastmem, rfl⟩)
    (le_refl 1)
    (pyInt_bounds _ (hdig _ hlastmem)).2

theorem openSub_erase_step (n : Char) (c : List Char) (h : OpenSub c) :
    OpenSub (erase_step n c) := by
  unfold erase_step
  split
  · rename_i hg
    intro hlen
    have hmem : n ∈ c := hg.2
    have hpos : 0 < c.length := List.length_pos.2 (List.ne_nil_of_mem hmem)
    have hlc : 1 < c.length := by
      have := List.length_erase_of_mem hmem
      omega
    exact (List.erase_sublist n c).trans (h hlc)
  · exact h

theorem openSub_collapse_step (n : Char) (c : List Char) (h : OpenSub c) :
    OpenSub (collapse_step n c) := by
  unfold collapse_step
  split
  · intro hlen
    simp at hlen
  · exact h

theorem allCells_initial_openSub (arr : List Char) :
    AllCells OpenSub (initial_possibilities arr) := by
  intro cell hc
  unfold initial_possibilities at hc
  rcases List.mem_map.1 hc with ⟨i, _, rfl⟩
  split
  · intro hlen
    simp at hlen
  · intro _
    exact List.Sublist.refl digits19

theorem allCells_build_openSub (arr : List Char) :
    AllCells OpenSub (build_possibilities arr) := by
  unfold build_possibilities
  exact allCells_build_loop openSub_erase_step openSub_collapse_step 730
    (allCells_initial_openSub arr)

theorem getD_web {p : Poss} {i : Nat} (h : i < p.length) :
    (get_possibilities_for_web p).getD i [] =
      if (p.getD i []).length = 1 then p.getD i []
      else build_hints_string (p.getD i []) := by
  unfold get_possibilities_for_web
  have hlen : i < (p.map (fun cell =>
      if cell.length = 1 then cell else build_hints_string cell)).length := by
    rw [List.length_map]; exact h
  rw [getD_eq_getElem hlen, List.getElem_map, getD_eq_getElem h]

/-- C7 as stated is refuted: on `no_nine_input` cell 0 is open with
candidates 1..8, and its rendered hint block is not the fully padded
3-by-3 block the claim describes (the code truncates after the last
candidate, emitting no trailing padding). -/
theorem c7_render_hints_counterexample :
    (make_sudoku_solver no_nine_input).isOk = true ∧
    1 < ((build_possibilities (parse_puzzle_array no_nine_input)).getD 0 []).length ∧
    (get_possibilities_for_web
        (build_possibilities (parse_puzzle_array no_nine_input))).getD 0 [] ≠
      full_block_spec ((build_possibilities (parse_puzzle_array no_nine_input)).getD 0 []) := by
  refine ⟨?_, by decide, by decide⟩
  rw [make_sudoku_solver_isOk]
  decide

/-- C7 (amended): `get_possibilities_for_web` returns one display unit
per cell; a solved cell yields just its candidate list (its digit); an
open cell yields the keypad block in which digit d sits at row
ceil(d/3), column ((d-1) mod 3)+1, with blank positions padded by
spaces, truncated after the largest candidate (no padding is emitted
past it); on the all-blank puzzle every cell yields exactly
"123\n456\n789\n". -/
theorem c7_render_hints_amended (s : List Char) (st : SudokuSolver)
    (h1 : make_sudoku_solver s = Except.ok st) :
    (∀ i, i < 81 →
      ((st.possibilities.getD i []).length = 1 →
        (get_possibilities_for_web st.possibilities).getD i [] =
          st.possibilities.getD i []) ∧
      (1 < (st.possibilities.getD i []).length →
        (get_possibilities_for_web st.possibilities).getD i [] =
          block_spec_upto (st.possibilities.getD i []) 1
            (pyInt ((st.possibilities.getD i []).getLastD ' ')))) ∧
    get_possibilities_for_web (build_possibilities (parse_puzzle_array blank_input)) =
      List.replicate 81 "123\n456\n789\n".toList := by
  obtain ⟨_, hposs⟩ := make_sudoku_solver_ok h1
  constructor
  · intro i hi
    have hlen : i < st.possibilities.length := by
      rw [hposs, length_build_possibilities]; exact hi
    constructor
    · intro hone
      rw [getD_web hlen, if_pos hone]
    · intro hopen
      rw [getD_web hlen, if_neg (by omega)]
      have hsub : List.Sublist (st.possibilities.getD i []) digits19 := by
        have hall : AllCells OpenSub st.possibilities := by
          rw [hposs]; exact allCells_build_openSub _
        exact hall _ (@getD_mem (List Char) st.possibilities i [] hlen) hopen
      exact build_hints_string_eq hsub
        (by intro hnil; rw [hnil] at hopen; simp at hopen)
  · have hpb : parse_puzzle_array blank_input = List.replicate 81 ' ' := by decide
    rw [hpb, blank_build]
    decide

/-- Witness for C7 (amended) at `no_nine_input`. -/
theorem c7_render_hints_amended_witness :
    make_sudoku_solver no_nine_input = Except.ok no_nine_state ∧
    ((∀ i, i < 81 →
      ((no_nine_state.possibilities.getD i []).length = 1 →
        (get_possibilities_for_web no_nine_state.possibilities).getD i [] =
          no_nine_state.possibilities.getD i []) ∧
      (1 < (no_nine_state.possibilities.getD i []).length →
        (get_possibilities_for_web no_nine_state.possibilities).getD i [] =
          block_spec_upto (no_nine_state.possibilities.getD i []) 1
            (pyInt ((no_nine_state.possibilities.getD i []).getLastD ' ')))) ∧
    get_possibilities_for_web (build_possibilities (parse_puzzle_array blank_input)) =
      List.replicate 81 "123\n456\n789\n".toList) :=
  ⟨make_no_nine, c7_render_hints_amended no_nine_input no_nine_state make_no_nine⟩

/-! ### Claim C6: round-trip of the reduced puzzle.  First, structural
facts about units and the constructed fixed point. -/

theorem units_mem_self : ∀ i < 81, i ∈ row_indices (i / 9) ∧ i ∈ col_indices (i % 9) ∧
    i ∈ box_indices (box_of i) := by decide

theorem row_in_units : ∀ r < 9, ∀ i ∈ row_indices r, row_indices r ∈ units_of i := by decide

theorem col_in_units : ∀ c < 9, ∀ i ∈ col_indices c, col_indices c ∈ units_of i := by decide

theorem box_in_units : ∀ b < 9, ∀ i ∈ box_indices b, box_indices b ∈ units_of i := by decide

theorem row_indices_nodup : ∀ r < 9, (row_indices r).Nodup := by decide

theorem col_indices_nodup : ∀ c < 9, (col_indices c).Nodup := by decide

theorem units_of_lt : ∀ i < 81, ∀ u ∈ units_of i, ∀ j ∈ u, j < 81 := by decide

/-- Generic predicate preservation along a fold. -/
theorem foldl_pred {α : Type} {Q : Poss → Prop} {g : Poss → α → Poss} {l : List α}
    (hstep : ∀ q a, a ∈ l → Q q → Q (g q a)) {p : Poss} (hp : Q p) : Q (l.foldl g p) := by
  induction l generalizing p with
  | nil => exact hp
  | cons a rest ih =>
    rw [List.foldl_cons]
    exact ih (fun q b hb hq => hstep q b (List.mem_cons_of_mem a hb) hq)
      (hstep p a (by simp) hp)

theorem digCell_erase_step (n : Char) (c : List Char) (h : DigCell c) :
    DigCell (erase_step n c) := by
  refine ⟨erase_step_ne_nil n h.1, ?_, ?_⟩
  · intro hlen
    unfold erase_step at hlen ⊢
    split at hlen
    · rename_i hg
      split
      · have hc : 1 < c.length := by
          have := List.length_erase_of_mem hg.2
          omega
        exact (List.erase_sublist n c).trans (h.2.1 hc)
      · rename_i hg2
        exact absurd hg hg2
    · rename_i hg
      rw [if_neg hg]
      exact h.2.1 hlen
  · intro x hx
    unfold erase_step at hx
    split at hx
    · exact h.2.2 x ((List.erase_sublist n c).mem hx)
    · exact h.2.2 x hx

theorem digCell_collapse_step (n : Char) (c : List Char) (h : DigCell c) :
    DigCell (collapse_step n c) := by
  unfold collapse_step
  split
  · rename_i hg
    refine ⟨by simp, by intro hlen; simp at hlen, ?_⟩
    intro x hx
    rw [List.mem_singleton.1 hx]
    exact h.2.2 n hg.2
  · exact h

theorem digCell_nodup {c : List Char} (h : DigCell c) : c.Nodup := by
  rcases c with _ | ⟨a, rest⟩
  · exact List.nodup_nil
  · rcases rest with _ | ⟨b, rest2⟩
    · exact List.nodup_singleton a
    · have hlen : 1 < (a :: b :: rest2).length := by
        simp only [List.length_cons]
        omega
      exact (h.2.1 hlen).nodup (by decide)

theorem allCells_digCell (s : List Char) :
    AllCells DigCell (build_possibilities (parse_puzzle_array s)) := by
  unfold build_possibilities
  apply allCells_build_loop digCell_erase_step digCell_collapse_step 730
  intro cell hc
  unfold initial_possibilities at hc
  rcases List.mem_map.1 hc with ⟨i, hi, rfl⟩
  split
  · rename_i hgiven
    refine ⟨by simp, by intro hlen; simp at hlen, ?_⟩
    intro x hx
    rw [List.mem_singleton.1 hx]
    have hmem : (parse_puzzle_array s).getD i ' ' ∈ parse_puzzle_array s :=
      getD_mem (by rw [length_parse]; exact List.mem_range.1 hi)
    rcases parse_mem s _ hmem with hdig | hblank
    · exact hdig
    · exact absurd hblank hgiven
  · exact ⟨by decide, fun _ => List.Sublist.refl digits19, by decide⟩

/-- The constructed grid is a fixed point of a full pass. -/
theorem one_pass_fix (arr : List Char) :
    one_pass (build_possibilities arr) = build_possibilities arr := by
  unfold build_possibilities
  apply build_loop_stable 730 _ (inv_initial arr)
  have := count_initial_le arr
  omega

theorem update_cell_eq_self {p : Poss} {k : Nat} {f : List Char → List Char}
    (hk : k < p.length) (h : update_cell p k f = p) :
    f (p.getD k []) = p.getD k [] := by
  have h2 := congrArg (fun q => List.getD q k ([] : List Char)) h
  simp only [] at h2
  rw [getD_update_cell_self f hk] at h2
  exact h2

/-- At a fixed point of a unit reduction, no open cell of the unit
contains a digit solved in that unit. -/
theorem fix_unit_no_solved_digit {p : Poss} {idxs : List Nat}
    (h81 : ∀ k ∈ idxs, k < 81) (hlen : p.length = 81)
    (hfix : reduce_unit p idxs = p) :
    ∀ n ∈ solved_digits p idxs, ∀ k ∈ idxs, (p.getD k []).length ≠ 1 →
      n ∉ p.getD k [] := by
  have hcnt : number_of_possibilites (reduce_unit p idxs) = number_of_possibilites p := by
    rw [hfix]
  have hds := foldl_fix (fun n _ => shrink_eliminate_number h81 n)
    (show number_of_possibilites ((solved_digits p idxs).foldl
      (fun q n => eliminate_number q idxs n) p) = number_of_possibilites p from hcnt)
  intro n hn k hk hk1 hmem
  have helim : eliminate_number p idxs n = p := hds.2 n hn
  have hcnt2 : number_of_possibilites (eliminate_number p idxs n)
      = number_of_possibilites p := by rw [helim]
  have hcells := foldl_fix (fun i hi => shrink_update_cell (cellShrink_erase_step n) (h81 i hi))
    (show number_of_possibilites (idxs.foldl
      (fun q i => update_cell q i (erase_step n)) p) = number_of_possibilites p from hcnt2)
  have hupd : update_cell p k (erase_step n) = p := hcells.2 k hk
  have hfx : erase_step n (p.getD k []) = p.getD k [] :=
    update_cell_eq_self (by rw [hlen]; exact h81 k hk) hupd
  unfold erase_step at hfx
  rw [if_pos ⟨hk1, hmem⟩] at hfx
  have hle := List.length_erase_of_mem hmem
  rw [hfx] at hle
  have hpos : 0 < (p.getD k []).length := List.length_pos.2 (List.ne_nil_of_mem hmem)
  omega

/-- At a fixed point of a full pass, every stage and every unit of every
stage fixes the grid. -/
theorem stage_fixes {p : Poss} (hfix : one_pass p = p) :
    (∀ r ∈ List.range 9, reduce_row p r = p) ∧
    (∀ c ∈ List.range 9, reduce_column p c = p) ∧
    (∀ b ∈ List.range 9, reduce_box p b = p) ∧
    (∀ b ∈ List.range 9, find_unique_possibilities_by_box p b = p) := by
  have hcount : number_of_possibilites (one_pass p) = number_of_possibilites p := by
    rw [hfix]
  have hc4 : number_of_possibilites ((List.range 9).foldl find_unique_possibilities_by_box
      ((List.range 9).foldl reduce_box ((List.range 9).foldl reduce_column
        ((List.range 9).foldl reduce_row p)))) = number_of_possibilites p := hcount
  have h1le : number_of_possibilites ((List.range 9).foldl reduce_row p) ≤
      number_of_possibilites p := shrink_reduce_row.1 p
  have h2le : number_of_possibilites ((List.range 9).foldl reduce_column
      ((List.range 9).foldl reduce_row p)) ≤
      number_of_possibilites ((List.range 9).foldl reduce_row p) :=
    shrink_reduce_column.1 _
  have h3le : number_of_possibilites ((List.range 9).foldl reduce_box
      ((List.range 9).foldl reduce_column ((List.range 9).foldl reduce_row p))) ≤
      number_of_possibilites ((List.range 9).foldl reduce_column
        ((List.range 9).foldl reduce_row p)) :=
    shrink_reduce_box.1 _
  have h4le : number_of_possibilites ((List.range 9).foldl find_unique_possibilities_by_box
      ((List.range 9).foldl reduce_box ((List.range 9).foldl reduce_column
        ((List.range 9).foldl reduce_row p)))) ≤
      number_of_possibilites ((List.range 9).foldl reduce_box
        ((List.range 9).foldl reduce_column ((List.range 9).foldl reduce_row p))) :=
    shrink_find_unique_fold.1 _
  have hc1 : number_of_possibilites ((List.range 9).foldl reduce_row p)
      = number_of_possibilites p := by omega
  have hs1 : (List.range 9).foldl reduce_row p = p := shrink_reduce_row.2 p hc1
  rw [hs1] at hc4 h2le h3le h4le
  have hc2 : number_of_possibilites ((List.range 9).foldl reduce_column p)
      = number_of_possibilites p := by omega
  have hs2 : (List.range 9).foldl reduce_column p = p := shrink_reduce_column.2 p hc2
  rw [hs2] at hc4 h3le h4le
  have hc3 : number_of_possibilites ((List.range 9).foldl reduce_box p)
      = number_of_possibilites p := by omega
  have hs3 : (List.range 9).foldl reduce_box p = p := shrink_reduce_box.2 p hc3
  rw [hs3] at hc4 h4le
  refine ⟨?_, ?_, ?_, ?_⟩
  · exact (foldl_fix (fun r hr =>
      shrink_reduce_unit ((unit_indices_lt r (List.mem_range.1 hr)).1)) hc1).2
  · exact (foldl_fix (fun c hc =>
      shrink_reduce_unit ((unit_indices_lt c (List.mem_range.1 hc)).2.1)) hc2).2
  · exact (foldl_fix (fun b hb =>
      shrink_reduce_unit ((unit_indices_lt b (List.mem_range.1 hb)).2.2)) hc3).2
  · exact (foldl_fix (fun b hb =>
      shrink_find_unique (List.mem_range.1 hb)) hc4).2

/-! ### C6: the `MissingSolved` invariant - a digit absent from an open
cell is always solved somewhere in one of the cell's units. -/

theorem solvedStable_refl (p : Poss) : SolvedStable p p := fun _ _ h => h

theorem solvedStable_update {p q : Poss} {i : Nat} {f : List Char → List Char}
    (hf : ∀ c : List Char, c.length = 1 → f c = c) (h : SolvedStable p q) :
    SolvedStable p (update_cell q i f) := fun j d hj =>
  update_cell_preserves_singleton hf rfl (h j d hj)

theorem solved_in_units_stable {p q : Poss} (h : SolvedStable p q) {i : Nat} {d : Char}
    (hs : solved_in_units p i d) : solved_in_units q i d := by
  obtain ⟨u, hu, j, hj, hpj⟩ := hs
  exact ⟨u, hu, j, hj, h j d hpj⟩

theorem collapse_step_cases (n : Char) (c : List Char) :
    collapse_step n c = c ∨ (collapse_step n c).length = 1 := by
  unfold collapse_step
  split
  · right; rfl
  · left; rfl

theorem missingSolved_update_collapse {p : Poss} {i0 : Nat} {n : Char}
    (h : MissingSolved p) : MissingSolved (update_cell p i0 (collapse_step n)) := by
  rcases Nat.lt_or_ge i0 p.length with hr | hr
  · have hstable : SolvedStable p (update_cell p i0 (collapse_step n)) :=
      solvedStable_update (collapse_step_fixes_singleton n) (solvedStable_refl p)
    intro i hi hlen d hd hdmem
    rcases eq_or_ne i0 i with rfl | hne
    · rw [getD_update_cell_self _ hr] at hlen hdmem
      rcases collapse_step_cases n (p.getD i0 []) with hc | hc
      · rw [hc] at hlen hdmem
        exact solved_in_units_stable hstable (h i0 hi hlen d hd hdmem)
      · omega
    · rw [getD_update_cell_ne _ hne] at hlen hdmem
      exact solved_in_units_stable hstable (h i hi hlen d hd hdmem)
  · rw [update_cell_of_ge _ hr]; exact h

theorem missingSolved_update_erase {p : Poss} {i0 : Nat} {n : Char} {idxs : List Nat}
    (hunit : idxs ∈ units_of i0)
    (hwit : ∃ j ∈ idxs, p.getD j [] = [n])
    (h : MissingSolved p) : MissingSolved (update_cell p i0 (erase_step n)) := by
  rcases Nat.lt_or_ge i0 p.length with hr | hr
  · have hstable : SolvedStable p (update_cell p i0 (erase_step n)) :=
      solvedStable_update (erase_step_fixes_singleton n) (solvedStable_refl p)
    intro i hi hlen d hd hdmem
    rcases eq_or_ne i0 i with rfl | hne
    · rw [getD_update_cell_self _ hr] at hlen hdmem
      unfold erase_step at hlen hdmem
      by_cases hg : (p.getD i0 []).length ≠ 1 ∧ n ∈ p.getD i0 []
      · rw [if_pos hg] at hlen hdmem
        rcases eq_or_ne d n with rfl | hdn
        · obtain ⟨j, hj, hpj⟩ := hwit
          exact ⟨idxs, hunit, j, hj, hstable j d hpj⟩
        · have hle := List.length_erase_of_mem hg.2
          have hlen' : 1 < (p.getD i0 []).length := by omega
          have hdp : d ∉ p.getD i0 [] := fun hmem =>
            hdmem ((List.mem_erase_of_ne hdn).2 hmem)
          exact solved_in_units_stable hstable (h i0 hi hlen' d hd hdp)
      · rw [if_neg hg] at hlen hdmem
        exact solved_in_units_stable hstable (h i0 hi hlen d hd hdmem)
    · rw [getD_update_cell_ne _ hne] at hlen hdmem
      exact solved_in_units_stable hstable (h i hi hlen d hd hdmem)
  · rw [update_cell_of_ge _ hr]; exact h

theorem solved_digits_mem {p : Poss} {idxs : List Nat} {n : Char}
    (h : n ∈ solved_digits p idxs) : ∃ j ∈ idxs, p.getD j [] = [n] := by
  unfold solved_digits at h
  rcases List.mem_filterMap.1 h with ⟨j, hj, hjn⟩
  refine ⟨j, hj, ?_⟩
  by_cases hl : (p.getD j []).length = 1
  · have hif : (if (p.getD j []).length = 1 then (p.getD j []).head? else none) = some n := hjn
    rw [if_pos hl] at hif
    cases hc : p.getD j [] with
    | nil => rw [hc] at hl; simp at hl
    | cons a t =>
      rw [hc] at hl hif
      simp only [List.head?_cons, Option.some.injEq] at hif
      simp only [List.length_cons] at hl
      rw [hif, List.length_eq_zero.1 (by omega : t.length = 0)]
  · have hif : (if (p.getD j []).length = 1 then (p.getD j []).head? else none) = some n := hjn
    rw [if_neg hl] at hif
    exact absurd hif (by simp)

theorem missingSolved_eliminate {p : Poss} {idxs : List Nat} {n : Char}
    (hunits : ∀ k ∈ idxs, idxs ∈ units_of k)
    (hwit : ∃ j ∈ idxs, p.getD j [] = [n])
    (h : MissingSolved p) :
    MissingSolved (eliminate_number p idxs n) ∧ SolvedStable p (eliminate_number p idxs n) := by
  unfold eliminate_number
  apply foldl_pred (Q := fun q => MissingSolved q ∧ SolvedStable p q)
  · intro q i0 hi0 hq
    constructor
    · obtain ⟨j, hj, hpj⟩ := hwit
      exact missingSolved_update_erase (hunits i0 hi0) ⟨j, hj, hq.2 j n hpj⟩ hq.1
    · exact solvedStable_update (erase_step_fixes_singleton n) hq.2
  · exact ⟨h, solvedStable_refl p⟩

theorem missingSolved_reduce_unit {p : Poss} {idxs : List Nat}
    (hunits : ∀ k ∈ idxs, idxs ∈ units_of k)
    (h : MissingSolved p) :
    MissingSolved (reduce_unit p idxs) ∧ SolvedStable p (reduce_unit p idxs) := by
  unfold reduce_unit
  apply foldl_pred (Q := fun q => MissingSolved q ∧ SolvedStable p q)
  · intro q n hn hq
    obtain ⟨j, hj, hpj⟩ := solved_digits_mem hn
    have hres := missingSolved_eliminate hunits ⟨j, hj, hq.2 j n hpj⟩ hq.1
    exact ⟨hres.1, fun k d hk => hres.2 k d (hq.2 k d hk)⟩
  · exact ⟨h, solvedStable_refl p⟩

theorem missingSolved_find_unique {p q : Poss} {b : Nat}
    (hq : MissingSolved q ∧ SolvedStable p q) :
    MissingSolved (find_unique_possibilities_by_box q b) ∧
      SolvedStable p (find_unique_possibilities_by_box q b) := by
  unfold find_unique_possibilities_by_box
  apply foldl_pred (Q := fun q2 => MissingSolved q2 ∧ SolvedStable p q2)
  · intro q2 n hn hq2
    apply foldl_pred (Q := fun q3 => MissingSolved q3 ∧ SolvedStable p q3)
    · intro q3 i0 hi0 hq3
      exact ⟨missingSolved_update_collapse hq3.1,
        solvedStable_update (collapse_step_fixes_singleton n) hq3.2⟩
    · exact hq2
  · exact hq

theorem missingSolved_one_pass {p : Poss} (h : MissingSolved p) :
    MissingSolved (one_pass p) ∧ SolvedStable p (one_pass p) := by
  have hrows : MissingSolved ((List.range 9).foldl reduce_row p) ∧
      SolvedStable p ((List.range 9).foldl reduce_row p) := by
    apply foldl_pred (Q := fun q => MissingSolved q ∧ SolvedStable p q)
    · intro q r hr hq
      have hres := missingSolved_reduce_unit
        (fun k hk => row_in_units r (List.mem_range.1 hr) k hk) hq.1
      exact ⟨hres.1, fun j d hj => hres.2 j d (hq.2 j d hj)⟩
    · exact ⟨h, solvedStable_refl p⟩
  have hcols : MissingSolved ((List.range 9).foldl reduce_column
        ((List.range 9).foldl reduce_row p)) ∧
      SolvedStable p ((List.range 9).foldl reduce_column
        ((List.range 9).foldl reduce_row p)) := by
    apply foldl_pred (Q := fun q => MissingSolved q ∧ SolvedStable p q)
    · intro q c hc hq
      have hres := missingSolved_reduce_unit
        (fun k hk => col_in_units c (List.mem_range.1 hc) k hk) hq.1
      exact ⟨hres.1, fun j d hj => hres.2 j d (hq.2 j d hj)⟩
    · exact hrows
  have hboxes : MissingSolved ((List.range 9).foldl reduce_box
        ((List.range 9).foldl reduce_column ((List.range 9).foldl reduce_row p))) ∧
      SolvedStable p ((List.range 9).foldl reduce_box
        ((List.range 9).foldl reduce_column ((List.range 9).foldl reduce_row p))) := by
    apply foldl_pred (Q := fun q => MissingSolved q ∧ SolvedStable p q)
    · intro q b hb hq
      have hres := missingSolved_reduce_unit
        (fun k hk => box_in_units b (List.mem_range.1 hb) k hk) hq.1
      exact ⟨hres.1, fun j d hj => hres.2 j d (hq.2 j d hj)⟩
    · exact hcols
  show MissingSolved ((List.range 9).foldl find_unique_possibilities_by_box
      ((List.range 9).foldl reduce_box ((List.range 9).foldl reduce_column
        ((List.range 9).foldl reduce_row p)))) ∧ _
  apply foldl_pred (Q := fun q => MissingSolved q ∧ SolvedStable p q)
  · intro q b hb hq
    exact missingSolved_find_unique hq
  · exact hboxes

theorem missingSolved_build_loop (fuel : Nat) {p : Poss} (h : MissingSolved p) :
    MissingSolved (build_loop fuel p) := by
  induction fuel generalizing p with
  | zero => exact h
  | succ n ih =>
    rw [build_loop_succ]
    split
    · exact ih (missingSolved_one_pass h).1
    · exact (missingSolved_one_pass h).1

theorem missingSolved_initial (arr : List Char) :
    MissingSolved (initial_possibilities arr) := by
  intro i hi hlen d hd hdmem
  have hm : (initial_possibilities arr).getD i [] ∈ initial_possibilities arr :=
    getD_mem (by rw [length_initial]; exact hi)
  unfold initial_possibilities at hm
  rcases List.mem_map.1 hm with ⟨k, hk, hcell⟩
  have hcell2 : (initial_possibilities arr).getD i []
      = if arr.getD k ' ' ≠ ' ' then [arr.getD k ' '] else digits19 := by
    unfold initial_possibilities
    exact hcell.symm
  rw [hcell2] at hlen hdmem
  by_cases hg : arr.getD k ' ' ≠ ' '
  · rw [if_pos hg] at hlen
    simp at hlen
  · rw [if_neg hg] at hdmem
    exact absurd hd hdmem

theorem missingSolved_build (arr : List Char) :
    MissingSolved (build_possibilities arr) := by
  unfold build_possibilities
  exact missingSolved_build_loop 730 (missingSolved_initial arr)

/-! ### C6: membership characterisation of open cells at a fixed point -/

theorem mem_solved_digits_of {p : Poss} {idxs : List Nat} {j : Nat} {n : Char}
    (hj : j ∈ idxs) (hpj : p.getD j [] = [n]) : n ∈ solved_digits p idxs := by
  unfold solved_digits
  apply List.mem_filterMap.2
  refine ⟨j, hj, ?_⟩
  show (if (p.getD j []).length = 1 then (p.getD j []).head? else none) = some n
  rw [hpj]
  rfl

/-- At a fixed point of the pass, an open cell contains a digit exactly
when that digit is not solved anywhere in the cell's three units. -/
theorem open_cell_char {P : Poss} (hP81 : P.length = 81) (hms : MissingSolved P)
    (hfix : one_pass P = P) {i : Nat} (hi : i < 81)
    (hopen : 1 < (P.getD i []).length) {d : Char} (hd : d ∈ digits19) :
    d ∈ P.getD i [] ↔ ¬ solved_in_units P i d := by
  constructor
  · intro hmem hsu
    obtain ⟨u, hu, j, hj, hpj⟩ := hsu
    have h81 : ∀ k ∈ u, k < 81 := units_of_lt i hi u hu
    have hds : d ∈ solved_digits P u := mem_solved_digits_of hj hpj
    have hself := units_mem_self i hi
    have hne1 : (P.getD i []).length ≠ 1 := by omega
    simp only [units_of, List.mem_cons, List.not_mem_nil, or_false] at hu
    rcases hu with rfl | rfl | rfl
    · have hru : reduce_unit P (row_indices (i / 9)) = P :=
        (stage_fixes hfix).1 (i / 9) (List.mem_range.2 (by omega))
      exact fix_unit_no_solved_digit h81 hP81 hru d hds i hself.1 hne1 hmem
    · have hru : reduce_unit P (col_indices (i % 9)) = P :=
        (stage_fixes hfix).2.1 (i % 9) (List.mem_range.2 (by omega))
      exact fix_unit_no_solved_digit h81 hP81 hru d hds i hself.2.1 hne1 hmem
    · have hru : reduce_unit P (box_indices (box_of i)) = P :=
        (stage_fixes hfix).2.2.1 (box_of i) (List.mem_range.2 (by unfold box_of; omega))
      exact fix_unit_no_solved_digit h81 hP81 hru d hds i hself.2.2 hne1 hmem
  · intro hns
    by_contra hmem
    exact hns (hms i hi hopen d hd hmem)

theorem digits19_nodup : digits19.Nodup := by decide

theorem length_le_of_nodup_subset {l1 l2 : List Char} (hnd : l1.Nodup) (hsub : l1 ⊆ l2) :
    l1.length ≤ l2.length :=
  (List.subperm_of_subset hnd hsub).length_le

/-- A sublist of a duplicate-free list is the filter of that list by
membership. -/
theorem sublist_eq_filter {l L : List Char}
    (hsub : List.Sublist l L) (hnodup : L.Nodup) :
    l = L.filter (fun x => decide (x ∈ l)) := by
  induction hsub with
  | slnil => rfl
  | @cons l1 L1 a hs ih =>
    rw [List.filter_cons]
    have hal : a ∉ l1 := fun hmem => (List.nodup_cons.1 hnodup).1 (hs.subset hmem)
    rw [if_neg (by simpa using hal)]
    exact ih (List.nodup_cons.1 hnodup).2
  | @cons₂ l1 L1 a hs ih =>
    rw [List.filter_cons, if_pos (by simp)]
    have hfc : L1.filter (fun x => decide (x ∈ a :: l1))
        = L1.filter (fun x => decide (x ∈ l1)) := by
      apply List.filter_congr
      intro x hx
      have hxa : x ≠ a := fun h => (List.nodup_cons.1 hnodup).1 (h ▸ hx)
      simp [List.mem_cons, hxa]
    rw [hfc, ← ih (List.nodup_cons.1 hnodup).2]

/-- Two sublists of a duplicate-free list with the same members are
equal. -/
theorem eq_of_sublist_mem_iff {l1 l2 L : List Char}
    (h1 : List.Sublist l1 L) (h2 : List.Sublist l2 L) (hnodup : L.Nodup)
    (hmem : ∀ x ∈ L, x ∈ l1 ↔ x ∈ l2) : l1 = l2 := by
  rw [sublist_eq_filter h1 hnodup, sublist_eq_filter h2 hnodup]
  apply List.filter_congr
  intro x hx
  simp only [decide_eq_decide]
  exact hmem x hx

theorem build_loop_of_fix {p : Poss} (h : one_pass p = p) (fuel : Nat) :
    build_loop fuel p = p := by
  cases fuel with
  | zero => rfl
  | succ n => rw [build_loop_succ, h, if_neg (Nat.lt_irrefl _)]

theorem foldl_fix_of_fixes {α : Type} {g : Poss → α → Poss} {l : List α} {p : Poss}
    (h : ∀ a ∈ l, g p a = p) : l.foldl g p = p := by
  induction l with
  | nil => rfl
  | cons a t ih =>
    rw [List.foldl_cons, h a (by simp)]
    exact ih (fun b hb => h b (List.mem_cons_of_mem a hb))

/-- A solved cell of the covering state was already solved, with the
same digit, in the covered fixed point. -/
theorem p_solved_of_q_singleton {P q : Poss} (hP81 : P.length = 81)
    (hPdig : AllCells DigCell P) (hcov : Covers P q) {j : Nat} (hj : j < 81)
    {n : Char} (hqj : q.getD j [] = [n]) : P.getD j [] = [n] := by
  by_cases hl : (P.getD j []).length = 1
  · have hqp := (hcov j hj).1 hl
    rw [hqp] at hqj
    exact hqj
  · exfalso
    have hmemP : P.getD j [] ∈ P := getD_mem (by omega)
    have hnd := digCell_nodup (hPdig _ hmemP)
    have hne := (hPdig _ hmemP).1
    have hsub : P.getD j [] ⊆ q.getD j [] := fun x hx => (hcov j hj).2 x hx
    rw [hqj] at hsub
    have hlen := length_le_of_nodup_subset hnd hsub
    have hpos : 0 < (P.getD j []).length := List.length_pos.2 hne
    simp only [List.length_singleton] at hlen
    omega

/-! ### C6: re-running the elimination stages from the reduced puzzle -/

theorem covInv_update_erase {P q : Poss} {u : List Nat} {n : Char} {k : Nat}
    (hP81 : P.length = 81) (_hPdig : AllCells DigCell P)
    (hPfix : reduce_unit P u = P) (hu81 : ∀ k2 ∈ u, k2 < 81)
    (hPn : ∃ j ∈ u, P.getD j [] = [n]) (hk : k ∈ u)
    (h : CovInv P q) : CovInv P (update_cell q k (erase_step n)) := by
  obtain ⟨hcov, hdig, hq81⟩ := h
  refine ⟨?_, allCells_update_cell (digCell_erase_step n) hdig,
    by rw [length_update_cell]; exact hq81⟩
  intro i hi
  constructor
  · intro hsol
    exact update_cell_preserves_singleton (erase_step_fixes_singleton n) hsol
      ((hcov i hi).1 hsol)
  · intro d hd
    rcases eq_or_ne k i with rfl | hne
    · have hklt : k < q.length := by omega
      rw [getD_update_cell_self _ hklt]
      unfold erase_step
      by_cases hg : (q.getD k []).length ≠ 1 ∧ n ∈ q.getD k []
      · rw [if_pos hg]
        have hqnd : (q.getD k []).Nodup := digCell_nodup (hdig _ (getD_mem hklt))
        have hdq : d ∈ q.getD k [] := (hcov k hi).2 d hd
        rw [hqnd.mem_erase_iff]
        refine ⟨?_, hdq⟩
        intro hdn
        subst hdn
        have hPk1 : (P.getD k []).length ≠ 1 := by
          intro h1
          have hqP := (hcov k hi).1 h1
          rw [hqP] at hg
          exact hg.1 h1
        obtain ⟨j, hj, hPj⟩ := hPn
        exact fix_unit_no_solved_digit hu81 hP81 hPfix d
          (mem_solved_digits_of hj hPj) k hk hPk1 hd
      · rw [if_neg hg]
        exact (hcov k hi).2 d hd
    · rw [getD_update_cell_ne _ hne]
      exact (hcov i hi).2 d hd

theorem covInv_eliminate {P q : Poss} {u : List Nat} {n : Char}
    (hP81 : P.length = 81) (hPdig : AllCells DigCell P)
    (hPfix : reduce_unit P u = P) (hu81 : ∀ k ∈ u, k < 81)
    (hPn : ∃ j ∈ u, P.getD j [] = [n])
    (h : CovInv P q) : CovInv P (eliminate_number q u n) := by
  unfold eliminate_number
  apply foldl_pred (Q := fun q2 => CovInv P q2)
  · intro q2 k hk hq2
    exact covInv_update_erase hP81 hPdig hPfix hu81 hPn hk hq2
  · exact h

theorem covInv_reduce_unit {P q : Poss} {u : List Nat}
    (hP81 : P.length = 81) (hPdig : AllCells DigCell P)
    (hPfix : reduce_unit P u = P) (hu81 : ∀ k ∈ u, k < 81)
    (h : CovInv P q) : CovInv P (reduce_unit q u) := by
  unfold reduce_unit
  apply foldl_pred (Q := fun q2 => CovInv P q2)
  · intro q2 n hn hq2
    obtain ⟨j, hj, hqj⟩ := solved_digits_mem hn
    exact covInv_eliminate hP81 hPdig hPfix hu81
      ⟨j, hj, p_solved_of_q_singleton hP81 hPdig h.1 (hu81 j hj) hqj⟩ hq2
  · exact h

theorem erase_step_subset (n : Char) (c : List Char) : erase_step n c ⊆ c := by
  unfold erase_step
  split
  · exact (List.erase_sublist n c).subset
  · exact fun x hx => hx

theorem notin_update_erase {q : Poss} {k i : Nat} {n d : Char}
    (h : d ∉ q.getD i []) : d ∉ (update_cell q k (erase_step n)).getD i [] := by
  rcases eq_or_ne k i with rfl | hne
  · rcases Nat.lt_or_ge k q.length with hlt | hge
    · rw [getD_update_cell_self _ hlt]
      exact fun hmem => h (erase_step_subset n _ hmem)
    · rw [update_cell_of_ge _ hge]; exact h
  · rw [getD_update_cell_ne _ hne]; exact h

theorem notin_eliminate {q : Poss} {u : List Nat} {i : Nat} {n d : Char}
    (h : d ∉ q.getD i []) : d ∉ (eliminate_number q u n).getD i [] := by
  unfold eliminate_number
  apply foldl_pred (Q := fun q2 => d ∉ q2.getD i [])
  · intro q2 k _ hq2
    exact notin_update_erase hq2
  · exact h

theorem notin_reduce_unit {q : Poss} {u : List Nat} {i : Nat} {d : Char}
    (h : d ∉ q.getD i []) : d ∉ (reduce_unit q u).getD i [] := by
  unfold reduce_unit
  apply foldl_pred (Q := fun q2 => d ∉ q2.getD i [])
  · intro q2 n _ hq2
    exact notin_eliminate hq2
  · exact h

/-- Erasing a digit from an open cell of the covering grid really
removes it: the cell cannot have shrunk to a singleton first. -/
theorem update_erase_removes {P qa : Poss}
    (hP81 : P.length = 81) (hPdig : AllCells DigCell P)
    (hci : CovInv P qa) {i : Nat} (hi81 : i < 81)
    (hopen : 1 < (P.getD i []).length) (d : Char) :
    d ∉ (update_cell qa i (erase_step d)).getD i [] := by
  have hlt : i < qa.length := by rw [hci.2.2]; exact hi81
  rw [getD_update_cell_self _ hlt]
  unfold erase_step
  by_cases hg : (qa.getD i []).length ≠ 1 ∧ d ∈ qa.getD i []
  · rw [if_pos hg]
    have hnd : (qa.getD i []).Nodup := digCell_nodup (hci.2.1 _ (getD_mem hlt))
    intro hmem
    exact (hnd.mem_erase_iff.1 hmem).1 rfl
  · rw [if_neg hg]
    intro hmem
    apply hg
    refine ⟨?_, hmem⟩
    have hPi : P.getD i [] ∈ P := getD_mem (by omega)
    have hPnd := digCell_nodup (hPdig _ hPi)
    have hsub : P.getD i [] ⊆ qa.getD i [] := fun x hx => (hci.1 i hi81).2 x hx
    have hle := length_le_of_nodup_subset hPnd hsub
    omega

theorem eliminate_removes {P q : Poss} {u : List Nat}
    (hP81 : P.length = 81) (hPdig : AllCells DigCell P)
    (hPfix : reduce_unit P u = P) (hu81 : ∀ k ∈ u, k < 81)
    (hci : CovInv P q) {i : Nat} (hi : i ∈ u)
    (hopen : 1 < (P.getD i []).length) {d : Char}
    (hPd : ∃ j ∈ u, P.getD j [] = [d]) :
    d ∉ (eliminate_number q u d).getD i [] := by
  obtain ⟨u1, u2, husplit⟩ := List.append_of_mem hi
  show d ∉ (u.foldl (fun q2 k => update_cell q2 k (erase_step d)) q).getD i []
  rw [husplit, List.foldl_append, List.foldl_cons]
  have hqa : CovInv P (u1.foldl (fun q2 k => update_cell q2 k (erase_step d)) q) := by
    apply foldl_pred (Q := fun q2 => CovInv P q2)
    · intro q2 k hk hq2
      exact covInv_update_erase hP81 hPdig hPfix hu81 hPd
        (by rw [husplit]; exact List.mem_append_left _ hk) hq2
    · exact hci
  apply foldl_pred (Q := fun q2 => d ∉ q2.getD i [])
  · intro q2 k _ hq2
    exact notin_update_erase hq2
  · exact update_erase_removes hP81 hPdig hqa (hu81 i hi) hopen d

theorem reduce_unit_removes {P q : Poss} {u : List Nat}
    (hP81 : P.length = 81) (hPdig : AllCells DigCell P)
    (hPfix : reduce_unit P u = P) (hu81 : ∀ k ∈ u, k < 81)
    (hci : CovInv P q) {i : Nat} (hi : i ∈ u)
    (hopen : 1 < (P.getD i []).length) {d : Char}
    (hwit : ∃ j ∈ u, P.getD j [] = [d]) :
    d ∉ (reduce_unit q u).getD i [] := by
  obtain ⟨j, hj, hPj⟩ := hwit
  have hqj : q.getD j [] = [d] :=
    ((hci.1 j (hu81 j hj)).1 (by rw [hPj]; rfl)).trans hPj
  have hds : d ∈ solved_digits q u := mem_solved_digits_of hj hqj
  obtain ⟨ds1, ds2, hsplit⟩ := List.append_of_mem hds
  show d ∉ ((solved_digits q u).foldl (fun q2 n => eliminate_number q2 u n) q).getD i []
  rw [hsplit, List.foldl_append, List.foldl_cons]
  have hq1 : CovInv P (ds1.foldl (fun q2 n => eliminate_number q2 u n) q) := by
    apply foldl_pred (Q := fun q2 => CovInv P q2)
    · intro q2 n hn hq2
      have hn2 : n ∈ solved_digits q u := by
        rw [hsplit]; exact List.mem_append_left _ hn
      obtain ⟨j2, hj2, hqj2⟩ := solved_digits_mem hn2
      exact covInv_eliminate hP81 hPdig hPfix hu81
        ⟨j2, hj2, p_solved_of_q_singleton hP81 hPdig hci.1 (hu81 j2 hj2) hqj2⟩ hq2
    · exact hci
  apply foldl_pred (Q := fun q2 => d ∉ q2.getD i [])
  · intro q2 n _ hq2
    exact notin_eliminate hq2
  · exact eliminate_removes hP81 hPdig hPfix hu81 hq1 hi hopen ⟨j, hj, hPj⟩

/-! Stage-level versions, generic in the family of units. -/

theorem covInv_stage {P q : Poss} {f : Nat → List Nat}
    (hP81 : P.length = 81) (hPdig : AllCells DigCell P)
    (hPfixf : ∀ b ∈ List.range 9, reduce_unit P (f b) = P)
    (hf81 : ∀ b ∈ List.range 9, ∀ k ∈ f b, k < 81)
    (hci : CovInv P q) :
    CovInv P ((List.range 9).foldl (fun q2 b => reduce_unit q2 (f b)) q) := by
  apply foldl_pred (Q := fun q2 => CovInv P q2)
  · intro q2 b hb hq2
    exact covInv_reduce_unit hP81 hPdig (hPfixf b hb) (hf81 b hb) hq2
  · exact hci

theorem notin_stage {q : Poss} {f : Nat → List Nat} {i : Nat} {d : Char}
    (h : d ∉ q.getD i []) :
    d ∉ ((List.range 9).foldl (fun q2 b => reduce_unit q2 (f b)) q).getD i [] := by
  apply foldl_pred (Q := fun q2 => d ∉ q2.getD i [])
  · intro q2 b _ hq2
    exact notin_reduce_unit hq2
  · exact h

theorem stage_removes {P q : Poss} {f : Nat → List Nat}
    (hP81 : P.length = 81) (hPdig : AllCells DigCell P)
    (hPfixf : ∀ b ∈ List.range 9, reduce_unit P (f b) = P)
    (hf81 : ∀ b ∈ List.range 9, ∀ k ∈ f b, k < 81)
    (hci : CovInv P q) {i b0 : Nat} (hb0 : b0 ∈ List.range 9) (hib : i ∈ f b0)
    (hopen : 1 < (P.getD i []).length) {d : Char}
    (hwit : ∃ j ∈ f b0, P.getD j [] = [d]) :
    d ∉ ((List.range 9).foldl (fun q2 b => reduce_unit q2 (f b)) q).getD i [] := by
  obtain ⟨bs1, bs2, hbsplit⟩ := List.append_of_mem hb0
  rw [hbsplit, List.foldl_append, List.foldl_cons]
  have hq1 : CovInv P (bs1.foldl (fun q2 b => reduce_unit q2 (f b)) q) := by
    apply foldl_pred (Q := fun q2 => CovInv P q2)
    · intro q2 b hb hq2
      have hb9 : b ∈ List.range 9 := by
        rw [hbsplit]; exact List.mem_append_left _ hb
      exact covInv_reduce_unit hP81 hPdig (hPfixf b hb9) (hf81 b hb9) hq2
    · exact hci
  apply foldl_pred (Q := fun q2 => d ∉ q2.getD i [])
  · intro q2 b _ hq2
    exact notin_reduce_unit hq2
  · exact reduce_unit_removes hP81 hPdig (hPfixf b0 hb0) (hf81 b0 hb0) hq1 hib hopen hwit

theorem stage_rows_eq (q : Poss) :
    (List.range 9).foldl reduce_row q
      = (List.range 9).foldl (fun q2 b => reduce_unit q2 (row_indices b)) q := rfl

theorem stage_cols_eq (q : Poss) :
    (List.range 9).foldl reduce_column q
      = (List.range 9).foldl (fun q2 b => reduce_unit q2 (col_indices b)) q := rfl

theorem stage_boxes_eq (q : Poss) :
    (List.range 9).foldl reduce_box q
      = (List.range 9).foldl (fun q2 b => reduce_unit q2 (box_indices b)) q := rfl

/-! ### C6: rebuilding the engine from the reduced puzzle string -/

theorem headD_mem {c : List Char} (h : c ≠ []) (d : Char) : c.headD d ∈ c := by
  cases c with
  | nil => exact absurd rfl h
  | cons a t => exact List.mem_cons_self a t

theorem singleton_eq_headD {c : List Char} (h : c.length = 1) : c = [c.headD '.'] := by
  cases c with
  | nil => simp at h
  | cons a t =>
    simp only [List.length_cons] at h
    rw [List.length_eq_zero.1 (show t.length = 0 by omega)]
    rfl

theorem poss_ext {p q : Poss} (hp : p.length = 81) (hq : q.length = 81)
    (h : ∀ i < 81, p.getD i [] = q.getD i []) : p = q := by
  apply List.ext_getElem (by omega)
  intro i h1 h2
  have hi := h i (by omega)
  rw [getD_eq_getElem h1, getD_eq_getElem h2] at hi
  exact hi

/-- The parser is a per-character map on a clean 81-character string. -/
theorem parse_clean {s : List Char} (hlen : s.length = 81)
    (hclean : ∀ c ∈ s, c ≠ '\n' ∧ c ≠ '\r') :
    parse_puzzle_array s = s.map (fun c => if pyIsNumeric c then c else ' ') := by
  rw [parse_eq_spec]
  unfold parse_spec
  have hfil : s.filter (fun c => c ≠ '\n' ∧ c ≠ '\r') = s := by
    apply List.filter_eq_self.2
    intro c hc
    simp [(hclean c hc).1, (hclean c hc).2]
  rw [hfil]
  have hml : (s.map (fun c => if pyIsNumeric c then c else ' ')).length = 81 := by
    rw [List.length_map]; exact hlen
  rw [List.take_of_length_le (le_of_eq hml)]
  simp [hml]

/-- Re-parsing the reduced puzzle of a well-formed grid: digits of solved
cells stay, the '.' of open cells becomes a blank. -/
theorem parse_reduced {P : Poss} (hP81 : P.length = 81) (hPdig : AllCells DigCell P) :
    parse_puzzle_array (get_reduced_puzzle P)
      = P.map (fun cell => if cell.length = 1 then cell.headD '.' else ' ') := by
  have hlen : (get_reduced_puzzle P).length = 81 := by
    unfold get_reduced_puzzle
    rw [List.length_map]; exact hP81
  have hchars : ∀ c ∈ get_reduced_puzzle P, c.isDigit = true ∨ c = '.' := by
    intro c hc
    unfold get_reduced_puzzle at hc
    rcases List.mem_map.1 hc with ⟨cell, hcell, rfl⟩
    by_cases hl : cell.length = 1
    · rw [if_pos hl]
      exact Or.inl ((hPdig cell hcell).2.2 _ (headD_mem (hPdig cell hcell).1 '.'))
    · rw [if_neg hl]
      exact Or.inr rfl
  have hclean : ∀ c ∈ get_reduced_puzzle P, c ≠ '\n' ∧ c ≠ '\r' := by
    intro c hc
    rcases hchars c hc with hd | rfl
    · constructor
      · intro h; rw [h] at hd; exact absurd hd (by decide)
      · intro h; rw [h] at hd; exact absurd hd (by decide)
    · exact ⟨by decide, by decide⟩
  rw [parse_clean hlen hclean]
  unfold get_reduced_puzzle
  rw [List.map_map]
  apply List.map_congr_left
  intro cell hcell
  show (if pyIsNumeric (if cell.length = 1 then cell.headD '.' else '.')
      then (if cell.length = 1 then cell.headD '.' else '.') else ' ')
    = if cell.length = 1 then cell.headD '.' else ' '
  by_cases hl : cell.length = 1
  · rw [if_pos hl, if_pos hl]
    have hdig : pyIsNumeric (cell.headD '.') = true :=
      (hPdig cell hcell).2.2 _ (headD_mem (hPdig cell hcell).1 '.')
    rw [if_pos hdig]
  · rw [if_neg hl, if_neg hl]
    rw [if_neg (show ¬ (pyIsNumeric '.' = true) by decide)]

/-- The initial candidate grid of the re-parsed reduced puzzle: solved
cells come back as their singleton, open cells reset to the full list. -/
theorem initial_of_reduced {P : Poss} (hP81 : P.length = 81)
    (hPdig : AllCells DigCell P) :
    ∀ i < 81, (initial_possibilities (parse_puzzle_array (get_reduced_puzzle P))).getD i []
      = if (P.getD i []).length = 1 then P.getD i [] else digits19 := by
  intro i hi
  have hAi : (parse_puzzle_array (get_reduced_puzzle P)).getD i ' '
      = if (P.getD i []).length = 1 then (P.getD i []).headD '.' else ' ' := by
    rw [parse_reduced hP81 hPdig]
    have hlt : i < P.length := by omega
    have hlt2 : i < (P.map (fun cell =>
        if cell.length = 1 then cell.headD '.' else ' ')).length := by
      rw [List.length_map]; omega
    rw [getD_eq_getElem hlt2, List.getElem_map, ← getD_eq_getElem hlt]
  rw [getD_initial _ hi]
  by_cases hl : (P.getD i []).length = 1
  · rw [if_pos hl] at hAi
    have hcell := hPdig _ (@getD_mem (List Char) P i [] (show i < P.length by omega))
    have hdig : ((P.getD i []).headD '.').isDigit = true :=
      hcell.2.2 _ (headD_mem hcell.1 '.')
    have hne : (P.getD i []).headD '.' ≠ ' ' := by
      intro heq
      rw [heq] at hdig
      exact absurd hdig (by decide)
    rw [hAi, if_pos hne, if_pos hl]
    exact (singleton_eq_headD hl).symm
  · rw [if_neg hl] at hAi
    rw [hAi, if_neg (by simp), if_neg hl]

/-- The initial candidate lists built from any parsed input are
well-formed digit cells. -/
theorem allCells_digCell_initial (s : List Char) :
    AllCells DigCell (initial_possibilities (parse_puzzle_array s)) := by
  intro cell hc
  unfold initial_possibilities at hc
  rcases List.mem_map.1 hc with ⟨i, hi, rfl⟩
  split
  · rename_i hgiven
    refine ⟨by simp, by intro hlen; simp at hlen, ?_⟩
    intro x hx
    rw [List.mem_singleton.1 hx]
    have hmem : (parse_puzzle_array s).getD i ' ' ∈ parse_puzzle_array s :=
      getD_mem (by rw [length_parse]; exact List.mem_range.1 hi)
    rcases parse_mem s _ hmem with hdig | hblank
    · exact hdig
    · exact absurd hblank hgiven
  · exact ⟨by decide, fun _ => List.Sublist.refl digits19, by decide⟩

/-- Engine (re)construction from any initial grid that covers a fixed
point `P` cell-for-cell reaches exactly `P`. -/
theorem rebuild_core {A2 : List Char} {P : Poss}
    (hP81 : P.length = 81) (hPdig : AllCells DigCell P)
    (hms : MissingSolved P) (hfix : one_pass P = P)
    (hQdig : AllCells DigCell (initial_possibilities A2))
    (hQ0getD : ∀ i < 81, (initial_possibilities A2).getD i []
      = if (P.getD i []).length = 1 then P.getD i [] else digits19) :
    build_possibilities A2 = P := by
  have hQ081 := length_initial A2
  have hcov : Covers P (initial_possibilities A2) := by
    intro i hi
    constructor
    · intro hsol
      rw [hQ0getD i hi, if_pos hsol]
    · intro d hd
      rw [hQ0getD i hi]
      by_cases hl : (P.getD i []).length = 1
      · rw [if_pos hl]; exact hd
      · rw [if_neg hl]
        have hcell := hPdig _ (@getD_mem (List Char) P i [] (show i < P.length by omega))
        have hopen : 1 < (P.getD i []).length := by
          have := List.length_pos.2 hcell.1
          omega
        exact (hcell.2.1 hopen).subset hd
  have hci : CovInv P (initial_possibilities A2) := ⟨hcov, hQdig, hQ081⟩
  have hsf := stage_fixes hfix
  have hrowsfix : ∀ b ∈ List.range 9, reduce_unit P (row_indices b) = P :=
    fun b hb => hsf.1 b hb
  have hcolsfix : ∀ b ∈ List.range 9, reduce_unit P (col_indices b) = P :=
    fun b hb => hsf.2.1 b hb
  have hboxfix : ∀ b ∈ List.range 9, reduce_unit P (box_indices b) = P :=
    fun b hb => hsf.2.2.1 b hb
  have hrow81 : ∀ b ∈ List.range 9, ∀ k ∈ row_indices b, k < 81 :=
    fun b hb => (unit_indices_lt b (List.mem_range.1 hb)).1
  have hcol81 : ∀ b ∈ List.range 9, ∀ k ∈ col_indices b, k < 81 :=
    fun b hb => (unit_indices_lt b (List.mem_range.1 hb)).2.1
  have hbox81 : ∀ b ∈ List.range 9, ∀ k ∈ box_indices b, k < 81 :=
    fun b hb => (unit_indices_lt b (List.mem_range.1 hb)).2.2
  have hS1 := covInv_stage hP81 hPdig hrowsfix hrow81 hci
  have hS2 := covInv_stage hP81 hPdig hcolsfix hcol81 hS1
  have hS3 := covInv_stage hP81 hPdig hboxfix hbox81 hS2
  set S1 := (List.range 9).foldl (fun q2 b => reduce_unit q2 (row_indices b))
    (initial_possibilities A2) with hS1def
  set S2 := (List.range 9).foldl (fun q2 b => reduce_unit q2 (col_indices b)) S1 with hS2def
  set S3 := (List.range 9).foldl (fun q2 b => reduce_unit q2 (box_indices b)) S2 with hS3def
  have hS3P : S3 = P := by
    apply poss_ext hS3.2.2 hP81
    intro i hi
    by_cases hl : (P.getD i []).length = 1
    · exact (hS3.1 i hi).1 hl
    · have hcell := hPdig _ (@getD_mem (List Char) P i [] (show i < P.length by omega))
      have hopen : 1 < (P.getD i []).length := by
        have := List.length_pos.2 hcell.1
        omega
      have hs3lt : i < S3.length := by rw [hS3.2.2]; exact hi
      have hs3cell := hS3.2.1 _ (@getD_mem (List Char) S3 i [] hs3lt)
      have hsub : P.getD i [] ⊆ S3.getD i [] := fun x hx => (hS3.1 i hi).2 x hx
      have hs3open : 1 < (S3.getD i []).length := by
        have := length_le_of_nodup_subset (digCell_nodup hcell) hsub
        omega
      apply eq_of_sublist_mem_iff (hs3cell.2.1 hs3open) (hcell.2.1 hopen) digits19_nodup
      intro x hx
      constructor
      · intro hxs3
        by_contra hxp
        obtain ⟨u, hu, j, hj, hPj⟩ := hms i hi hopen x hx hxp
        have hself := units_mem_self i hi
        simp only [units_of, List.mem_cons, List.not_mem_nil, or_false] at hu
        rcases hu with rfl | rfl | rfl
        · have hrem : x ∉ S1.getD i [] := by
            rw [hS1def]
            exact stage_removes hP81 hPdig hrowsfix hrow81 hci
              (List.mem_range.2 (by omega)) hself.1 hopen ⟨j, hj, hPj⟩
          have hrem2 : x ∉ S2.getD i [] := by
            rw [hS2def]
            exact notin_stage hrem
          have hrem3 : x ∉ S3.getD i [] := by
            rw [hS3def]
            exact notin_stage hrem2
          exact hrem3 hxs3
        · have hrem2 : x ∉ S2.getD i [] := by
            rw [hS2def]
            exact stage_removes hP81 hPdig hcolsfix hcol81 hS1
              (List.mem_range.2 (by omega)) hself.2.1 hopen ⟨j, hj, hPj⟩
          have hrem3 : x ∉ S3.getD i [] := by
            rw [hS3def]
            exact notin_stage hrem2
          exact hrem3 hxs3
        · have hrem3 : x ∉ S3.getD i [] := by
            rw [hS3def]
            exact stage_removes hP81 hPdig hboxfix hbox81 hS2
              (List.mem_range.2 (by unfold box_of; omega)) hself.2.2 hopen ⟨j, hj, hPj⟩
          exact hrem3 hxs3
      · intro hxp
        exact hsub hxp
  have hop : one_pass (initial_possibilities A2) = P := by
    show (List.range 9).foldl find_unique_possibilities_by_box
      ((List.range 9).foldl reduce_box ((List.range 9).foldl reduce_column
        ((List.range 9).foldl reduce_row (initial_possibilities A2)))) = P
    rw [stage_rows_eq, stage_cols_eq, stage_boxes_eq]
    rw [← hS1def, ← hS2def, ← hS3def, hS3P]
    exact foldl_fix_of_fixes (fun b hb => hsf.2.2.2 b hb)
  unfold build_possibilities
  have h730 : build_loop 730 (initial_possibilities A2)
      = if number_of_possibilites (one_pass (initial_possibilities A2))
          < number_of_possibilites (initial_possibilities A2)
        then build_loop 729 (one_pass (initial_possibilities A2))
        else one_pass (initial_possibilities A2) := build_loop_succ 729 _
  rw [h730, hop]
  split
  · exact build_loop_of_fix hfix 729
  · rfl

/-- Re-running construction on the reduced puzzle rebuilds the very same
candidate grid. -/
theorem rebuild_eq (s : List Char) :
    build_possibilities (parse_puzzle_array (get_reduced_puzzle
      (build_possibilities (parse_puzzle_array s))))
      = build_possibilities (parse_puzzle_array s) :=
  rebuild_core (length_build_possibilities _) (allCells_digCell s)
    (missingSolved_build _) (one_pass_fix _)
    (allCells_digCell_initial _)
    (initial_of_reduced (length_build_possibilities _) (allCells_digCell s))

/-- Successful validation yields the explicit solver record. -/
theorem make_ok_of_check {s : List Char}
    (h : (check_valid_puzzle (parse_puzzle_array s)).isOk = true) :
    make_sudoku_solver s = Except.ok (solver_of s) := by
  unfold make_sudoku_solver
  cases hch : check_valid_puzzle (parse_puzzle_array s) with
  | error m =>
    rw [hch] at h
    exact Bool.noConfusion h
  | ok u => rfl

theorem solver_of_possibilities (s : List Char) :
    (solver_of s).possibilities = build_possibilities (parse_puzzle_array s) := by
  simp only [solver_of]

/-- Witness for C10 at the concrete all-blank input. -/
theorem c10_blank_puzzle_witness :
    blank_input.length = 81 ∧
    (make_sudoku_solver blank_input).isOk = true ∧
    number_of_possibilites (build_possibilities (parse_puzzle_array blank_input)) = 729 ∧
    get_reduced_puzzle (build_possibilities (parse_puzzle_array blank_input)) =
      List.replicate 81 '.' :=
  ⟨by decide, (c10_blank_puzzle blank_input (by decide) (by decide)).1,
    (c10_blank_puzzle blank_input (by decide) (by decide)).2.1,
    (c10_blank_puzzle blank_input (by decide) (by decide)).2.2⟩

/-! ### Claim C6: idempotence of the reduced-puzzle round trip -/

set_option maxHeartbeats 4000000 in
/-- C6 counterexample to unconditional idempotence: `clash_input` passes
validation (construction succeeds), but its reduced puzzle string - in
which elimination has solved cell 0 to '1' while cell 9 already holds
the given '1' of the same box and column - fails re-validation, so the
second construction raises instead of returning an identical reduced
puzzle. -/
theorem c6_roundtrip_counterexample :
    (check_valid_puzzle (parse_puzzle_array clash_input)).isOk = true ∧
    (make_sudoku_solver (get_reduced_puzzle (build_possibilities
      (parse_puzzle_array clash_input)))).isOk = false := by
  constructor
  · decide
  · rw [make_sudoku_solver_isOk]
    decide

/-- C6 (amended): provided the reduced puzzle string of a successfully
constructed solver itself passes unit validation, constructing a second
solver from that string succeeds and reproduces the identical reduced
puzzle string (`get_reduced_puzzle`, lines 385-397, after `__init__`,
lines 26-50). -/
theorem c6_roundtrip_amended (s : List Char) (st : SudokuSolver)
    (h1 : make_sudoku_solver s = Except.ok st)
    (h2 : (check_valid_puzzle (parse_puzzle_array
      (get_reduced_puzzle st.possibilities))).isOk = true) :
    ∃ st2, make_sudoku_solver (get_reduced_puzzle st.possibilities) = Except.ok st2 ∧
      get_reduced_puzzle st2.possibilities = get_reduced_puzzle st.possibilities := by
  have hposs := (make_sudoku_solver_ok h1).2
  refine ⟨solver_of (get_reduced_puzzle st.possibilities), make_ok_of_check h2, ?_⟩
  rw [solver_of_possibilities, hposs, rebuild_eq s]

/-- Witness for C6 (amended) at the all-blank input, whose reduced
puzzle (81 dots) re-validates successfully. -/
theorem c6_roundtrip_amended_witness :
    make_sudoku_solver blank_input = Except.ok blank_state ∧
    ∃ st2, make_sudoku_solver (get_reduced_puzzle blank_state.possibilities)
        = Except.ok st2 ∧
      get_reduced_puzzle st2.possibilities
        = get_reduced_puzzle blank_state.possibilities :=
  ⟨make_blank, c6_roundtrip_amended blank_input blank_state make_blank (by decide)⟩

end Sudoku
